import Mathlib

/-!
# Verification of the db_sync repository

Shallow embedding of the db_sync system (a cursor-based table replicator):

* `db_sync_client.py` — the sender: `query_table` extracts rows past the
  persisted cursor, `send_data_over_socket` JSON-encodes a
  `{schema, data}` payload and writes it fully to a socket, and the
  `__main__` loop advances and persists the cursor only after a confirmed
  send of a frame containing rows.
* `db_sync_server.py` — the receiver: `handle_client_data` accumulates
  received chunks and detects frame completion by attempting a JSON parse
  of the whole buffer after every chunk; `apply_schema` creates the table
  if absent (never alters an existing one); `insert_row` inserts one row.
* `db_sync.py` — an earlier draft whose `query_new_rows` returns the rows
  past a cursor together with the maximum key among them (`None` if none).

The wire format is modeled faithfully: the sender emits exactly
`json.dumps({'schema': S, 'data': R})` with Python's default separators
(", " and ": ", keys in insertion order `schema`, `data`), and the
receiver parses that canonical form.  `json.dumps` escapes `"` and `\`
with a backslash; control characters and non-ASCII text (which Python
escapes as \uXXXX) are excluded by the well-formedness predicate `wfStr`
carried by the round-trip theorems, so every byte on the wire is a single
printable ASCII character and the `recv`/`decode('utf-8')` step of the
receiver is the identity on chunks (a UnicodeDecodeError can never occur
for traffic of this sender).  The parser accepts exactly the canonical
documents the sender produces; `json.loads` is laxer (whitespace, other
escapes), but on every buffer arising in the modeled exchanges the two
agree: a strict prefix of a canonical document and a concatenation of two
documents are rejected by both.
-/

/-! ## JSON values (the payloads of the wire protocol) -/

mutual
inductive JValue where
  | jnull : JValue
  | jbool : Bool → JValue
  | jint : Int → JValue
  | jstr : List Char → JValue
  | jarr : JList → JValue
  | jobj : JMembers → JValue
inductive JList where
  | nil : JList
  | cons : JValue → JList → JList
inductive JMembers where
  | nil : JMembers
  | cons : List Char → JValue → JMembers → JMembers
end

deriving instance DecidableEq for JValue
deriving instance Repr for JValue

def JList.toList : JList → List JValue
  | .nil => []
  | .cons v tl => v :: tl.toList

def JList.ofList : List JValue → JList
  | [] => .nil
  | v :: tl => .cons v (JList.ofList tl)

/-! ## Serialization: `json.dumps` with Python's default options

`json.dumps(payload)` with default `separators=(', ', ': ')` and
`ensure_ascii=True`.  Inside strings, `"` and `\` are escaped with a
backslash; all other characters of the printable ASCII range are emitted
verbatim (other characters would be \u-escaped by Python and are excluded
by `wfStr` in the theorems). -/

def escChar (c : Char) : List Char :=
  if c = '"' ∨ c = '\\' then ['\\', c] else [c]

def dumpStr (s : List Char) : List Char :=
  '"' :: (s.flatMap escChar ++ ['"'])

def digitChar (d : Nat) : Char := Char.ofNat (48 + d)

def natDigitsAux : Nat → Nat → List Char
  | 0, _ => []
  | fuel + 1, n =>
    if n < 10 then [digitChar n]
    else natDigitsAux fuel (n / 10) ++ [digitChar (n % 10)]

def natDigits (n : Nat) : List Char := natDigitsAux (n + 1) n

/-- Python's `repr` of an int: optional minus sign, then decimal digits. -/
def dumpInt (n : Int) : List Char :=
  if n < 0 then '-' :: natDigits n.natAbs else natDigits n.toNat

mutual
def dumpV : JValue → List Char
  | .jnull => ['n', 'u', 'l', 'l']
  | .jbool true => ['t', 'r', 'u', 'e']
  | .jbool false => ['f', 'a', 'l', 's', 'e']
  | .jint n => dumpInt n
  | .jstr s => dumpStr s
  | .jarr l => '[' :: (dumpList l ++ [']'])
  | .jobj m => '{' :: (dumpMembers m ++ ['}'])
def dumpList : JList → List Char
  | .nil => []
  | .cons v .nil => dumpV v
  | .cons v (.cons w tl) => dumpV v ++ ',' :: ' ' :: dumpList (.cons w tl)
def dumpMembers : JMembers → List Char
  | .nil => []
  | .cons k v .nil => dumpStr k ++ ':' :: ' ' :: dumpV v
  | .cons k v (.cons k2 v2 tl) =>
      dumpStr k ++ ':' :: ' ' :: dumpV v ++ ',' :: ' ' :: dumpMembers (.cons k2 v2 tl)
end

/-! ## Parsing: `json.loads` on the canonical documents of this protocol -/

/-- String body parser: input is everything after the opening quote;
consumes up to and including the closing quote.  Handles the two escapes
the sender produces. -/
def parseStrAux : List Char → Option (List Char × List Char)
  | [] => none
  | '"' :: rest => some ([], rest)
  | '\\' :: c :: rest =>
      if c = '"' ∨ c = '\\' then
        match parseStrAux rest with
        | some (s, r) => some (c :: s, r)
        | none => none
      else none
  | c :: rest =>
      match parseStrAux rest with
      | some (s, r) => some (c :: s, r)
      | none => none

def digitsToNat (ds : List Char) : Nat :=
  ds.foldl (fun a c => 10 * a + (c.toNat - 48)) 0

def parseIntTok (s : List Char) : Option (Int × List Char) :=
  if s.head? = some '-' then
    if (s.tail.takeWhile Char.isDigit).isEmpty then none
    else some (-(digitsToNat (s.tail.takeWhile Char.isDigit) : Int),
      s.tail.dropWhile Char.isDigit)
  else
    if (s.takeWhile Char.isDigit).isEmpty then none
    else some ((digitsToNat (s.takeWhile Char.isDigit) : Int),
      s.dropWhile Char.isDigit)

mutual
def parseV : Nat → List Char → Option (JValue × List Char)
  | 0, _ => none
  | _ + 1, [] => none
  | fuel + 1, c :: rest =>
    if c = 'n' then
      match rest with
      | 'u' :: 'l' :: 'l' :: r => some (.jnull, r)
      | _ => none
    else if c = 't' then
      match rest with
      | 'r' :: 'u' :: 'e' :: r => some (.jbool true, r)
      | _ => none
    else if c = 'f' then
      match rest with
      | 'a' :: 'l' :: 's' :: 'e' :: r => some (.jbool false, r)
      | _ => none
    else if c = '"' then
      match parseStrAux rest with
      | some (s, r) => some (.jstr s, r)
      | none => none
    else if c = '[' then
      match parseElems fuel rest with
      | some (l, r) => some (.jarr l, r)
      | none => none
    else if c = '{' then
      match parseMembs fuel rest with
      | some (m, r) => some (.jobj m, r)
      | none => none
    else
      match parseIntTok (c :: rest) with
      | some (n, r) => some (.jint n, r)
      | none => none
def parseElems : Nat → List Char → Option (JList × List Char)
  | 0, _ => none
  | _ + 1, ']' :: r => some (.nil, r)
  | fuel + 1, s =>
    match parseV fuel s with
    | some (v, r) =>
      match r with
      | ',' :: ' ' :: r2 =>
        (match parseElems fuel r2 with
         | some (l, r3) => some (.cons v l, r3)
         | none => none)
      | ']' :: r2 => some (.cons v .nil, r2)
      | _ => none
    | none => none
def parseMembs : Nat → List Char → Option (JMembers × List Char)
  | 0, _ => none
  | _ + 1, '}' :: r => some (.nil, r)
  | fuel + 1, s =>
    match s with
    | '"' :: s1 =>
      match parseStrAux s1 with
      | some (k, r) =>
        match r with
        | ':' :: ' ' :: r2 =>
          match parseV fuel r2 with
          | some (v, r3) =>
            match r3 with
            | ',' :: ' ' :: r4 =>
              (match parseMembs fuel r4 with
               | some (m, r5) => some (.cons k v m, r5)
               | none => none)
            | '}' :: r4 => some (.cons k v .nil, r4)
            | _ => none
          | none => none
        | _ => none
      | none => none
    | _ => none
end

/-- `json.loads`: succeeds exactly when the whole buffer is one complete
document (Python raises on trailing data). -/
def json_loads (s : List Char) : Option JValue :=
  match parseV (s.length + 1) s with
  | some (v, []) => some v
  | _ => none

/-! ## Data model of the protocol

Scalars are the JSON-representable values a row cell can hold (text,
integer, bool, null — the values psycopg2 tuples carry through
`json.dumps`).  A `Column` is one entry of the schema list built by
`query_table_schema` (`{'name': ..., 'type': ...}`).  A `DBRow` is one
tuple of the source table; its first component is the `id` primary key
(the code reads `row[0]`). -/

inductive Scalar where
  | s : List Char → Scalar
  | i : Int → Scalar
  | b : Bool → Scalar
  | null : Scalar
deriving DecidableEq, Repr

structure Column where
  name : List Char
  type : List Char
deriving DecidableEq, Repr

structure DBRow where
  id : Int
  rest : List Scalar
deriving DecidableEq, Repr

/-- Printable-ASCII well-formedness: exactly the characters `json.dumps`
emits verbatim or with a simple backslash escape (everything else would
be \uXXXX-escaped, outside this model). -/
def wfChar (c : Char) : Bool := 32 ≤ c.toNat ∧ c.toNat ≤ 126

def wfStr (s : List Char) : Bool := s.all wfChar

def wfScalar : Scalar → Bool
  | .s v => wfStr v
  | _ => true

def wfColumn (c : Column) : Bool := wfStr c.name && wfStr c.type

def wfRow (r : List Scalar) : Bool := r.all wfScalar

/-! ## The wire frame built by the sender

`send_data_over_socket` sends `json.dumps({'schema': payload['schema'],
'data': payload['data']})`: an object with the two keys in that insertion
order, schema entries as `{'name': ..., 'type': ...}` objects, rows as
arrays of scalars (psycopg2 tuples become JSON arrays). -/

def schemaKey : List Char := ['s', 'c', 'h', 'e', 'm', 'a']
def dataKey : List Char := ['d', 'a', 't', 'a']
def nameKey : List Char := ['n', 'a', 'm', 'e']
def typeKey : List Char := ['t', 'y', 'p', 'e']

def scalarJ : Scalar → JValue
  | .s v => .jstr v
  | .i n => .jint n
  | .b v => .jbool v
  | .null => .jnull

def columnJ (c : Column) : JValue :=
  .jobj (.cons nameKey (.jstr c.name) (.cons typeKey (.jstr c.type) .nil))

def rowJ (r : List Scalar) : JValue := .jarr (JList.ofList (r.map scalarJ))

def schemaJ (s : List Column) : JValue := .jarr (JList.ofList (s.map columnJ))

def rowsJ (rs : List (List Scalar)) : JValue := .jarr (JList.ofList (rs.map rowJ))

def payloadJ (s : List Column) (rs : List (List Scalar)) : JValue :=
  .jobj (.cons schemaKey (schemaJ s) (.cons dataKey (rowsJ rs) .nil))

/-- The byte stream `send_data_over_socket` produces for one frame. -/
def encodeFrame (s : List Column) (rs : List (List Scalar)) : List Char :=
  dumpV (payloadJ s rs)

/-! ## Receiver framing loop (`handle_client_data`, lines 186–201)

The receiver appends each received chunk to `full_data` and detects frame
completion by attempting `json.loads` on the whole buffer; on failure it
keeps receiving.  An empty chunk is a client disconnect (`return False`).
The model returns the first successfully parsed payload, or `none` when
the chunk list is exhausted or a disconnect occurs before a buffer
parses (the Python loop would block on `recv` forever or return False). -/

def recvLoop : List (List Char) → List Char → Option JValue
  | [], _ => none
  | chunk :: rest, buf =>
    if chunk.isEmpty then none
    else
      match json_loads (buf ++ chunk) with
      | some v => some v
      | none => recvLoop rest (buf ++ chunk)

def handle_client_data (chunks : List (List Char)) : Option JValue :=
  recvLoop chunks []

/-! ## Sender transmission loop (`send_data_over_socket`, lines 170–185)

The socket is an oracle: a list of per-`send` outcomes, where `some n`
means the kernel accepted `n` bytes of the remaining slice and `none`
means `send` raised an exception.  `send` returning `0` raises
`RuntimeError("Socket connection broken")`, caught by the same handler.
An exhausted oracle models a forever-blocking socket (no success). -/

def sendAll (len : Nat) : List (Option Nat) → Nat → Bool × Nat
  | [], total => if len ≤ total then (true, total) else (false, total)
  | none :: _, total => if len ≤ total then (true, total) else (false, total)
  | some 0 :: _, total => if len ≤ total then (true, total) else (false, total)
  | some (n + 1) :: outs, total =>
    if len ≤ total then (true, total) else sendAll len outs (total + (n + 1))

/-- `send_data_over_socket` for the frame `{'schema': s, 'data': rs}`:
result flag and total bytes handed to the socket. -/
def send_data_over_socket (outs : List (Option Nat)) (s : List Column)
    (rs : List (List Scalar)) : Bool × Nat :=
  sendAll (encodeFrame s rs).length outs 0

/-- Each `send` call returns at most the number of bytes it was given
(`encoded_message[total_sent:]`), and the oracle is unconstrained once
the loop has finished. -/
def validSends (len : Nat) : List (Option Nat) → Nat → Bool
  | [], _ => true
  | none :: _, _ => true
  | some n :: outs, total =>
    if len ≤ total then true
    else total + n ≤ len && validSends len outs (total + n)

/-! ## Sender extraction (`query_table_schema` and `query_table`,
`db_sync_client.py` lines 86–156)

The source table is a list of rows; `SELECT ... ORDER BY id` is modeled
by `insertionSort` on the key.  The `fail` flag is the `psycopg2.Error`
branch of `query_table` (the `except` clause returns
`{'schema': [], 'data': [], 'new_last_sent_id': last_sent_id}`).  The
`id` column is `NOT NULL` in this model, so the
`rows[-1][0] is not None` guard of line 145 always takes its first arm. -/

def rowLe (a b : DBRow) : Prop := a.id ≤ b.id

instance : DecidableRel rowLe := fun a b => inferInstanceAs (Decidable (a.id ≤ b.id))

instance : IsTotal DBRow rowLe := ⟨fun a b => Int.le_total a.id b.id⟩

instance : IsTrans DBRow rowLe := ⟨fun _ _ _ => Int.le_trans⟩

/-- `query_table_schema`: the catalog's name/type pairs with the type
uppercased (`col[1].upper()`). -/
def query_table_schema (catalog : List Column) : List Column :=
  catalog.map (fun c => ⟨c.name, c.type.map Char.toUpper⟩)

structure QueryResult where
  schema : List Column
  data : List DBRow
  new_last_sent_id : Int
deriving DecidableEq, Repr

def query_table (fail : Bool) (table : List DBRow) (catalog : List Column)
    (last_sent_id : Int) : QueryResult :=
  if fail then ⟨[], [], last_sent_id⟩
  else
    let rows :=
      if last_sent_id > 0 then
        (table.filter (fun r => last_sent_id < r.id)).insertionSort rowLe
      else table.insertionSort rowLe
    let new_last :=
      match rows.getLast? with
      | some r => r.id
      | none => last_sent_id
    ⟨if last_sent_id = 0 then query_table_schema catalog else [], rows, new_last⟩

/-! ## Sender sync loop (`__main__`, `db_sync_client.py` lines 231–255)

One cycle: query, and if the payload has data or schema, connect and
send; on a confirmed send of a frame with rows, update and persist the
cursor.  `qfail`, `connectOk` and `sendOk` are the per-cycle environment
outcomes (extraction error, `connect_to_tcp_server` result,
`send_data_over_socket` result). -/

structure CycleResult where
  cursor : Int
  openedConn : Bool
  attempted : Option (List Column × List DBRow)
  saved : Bool
  schemaRead : Bool
deriving Repr

def sync_cycle (qfail connectOk sendOk : Bool) (table : List DBRow)
    (catalog : List Column) (cursor : Int) : CycleResult :=
  let p := query_table qfail table catalog cursor
  let sr := !qfail && decide (cursor = 0)
  if p.data ≠ [] ∨ p.schema ≠ [] then
    if connectOk then
      if sendOk then
        if p.data ≠ [] then
          ⟨p.new_last_sent_id, true, some (p.schema, p.data), true, sr⟩
        else ⟨cursor, true, some (p.schema, p.data), false, sr⟩
      else ⟨cursor, true, some (p.schema, p.data), false, sr⟩
    else ⟨cursor, false, none, false, sr⟩
  else ⟨cursor, false, none, false, sr⟩

structure CycleEnv where
  qfail : Bool
  connectOk : Bool
  sendOk : Bool
  table : List DBRow
deriving Repr

/-- The rows actually delivered in one cycle: the data of the attempted
payload when the send was confirmed. -/
def deliveredRows (connectOk sendOk : Bool) (r : CycleResult) : List DBRow :=
  match r.attempted with
  | some (_, d) => if connectOk && sendOk then d else []
  | none => []

/-- Run the sync loop over a list of per-cycle environments, returning
the final persisted cursor and all rows transmitted (in order). -/
def runCycles (catalog : List Column) : Int → List CycleEnv → Int × List DBRow
  | c, [] => (c, [])
  | c, e :: es =>
    let r := sync_cycle e.qfail e.connectOk e.sendOk e.table catalog c
    let (cf, rows) := runCycles catalog r.cursor es
    (cf, deliveredRows e.connectOk e.sendOk r ++ rows)

/-! ## Earlier draft extraction (`query_new_rows`, `db_sync.py` lines 73–127)

`last_value = None` disables the key condition; a timestamp condition
(`timestamp_column`/`time_duration`) is an abstract row predicate, OR-ed
with the key condition as in the SQL `WHERE ... OR ...`.  On
`psycopg2.Error` the function returns `([], None)`.  With no rows it
returns `None` as the new cursor, else the maximum key
(`max(row[0] for row in rows)`). -/

def maxId : List DBRow → Option Int
  | [] => none
  | r :: rs => some (rs.foldl (fun a x => max a x.id) r.id)

def query_new_rows (fail : Bool) (table : List DBRow) (last_value : Option Int)
    (recent : Option (DBRow → Bool)) : List DBRow × Option Int :=
  if fail then ([], none)
  else
    let pred : DBRow → Bool := fun r =>
      match last_value, recent with
      | some lv, some rc => decide (lv < r.id) || rc r
      | some lv, none => decide (lv < r.id)
      | none, some rc => rc r
      | none, none => true
    let rows := (table.filter pred).insertionSort rowLe
    (rows, if rows.isEmpty then none else maxId rows)

/-! ## Receiver schema application (`apply_schema`, `db_sync_server.py`
lines 126–169)

The target catalog is a list of (table name, column list) pairs.  If the
table exists nothing is altered ("Skipping schema alteration"); otherwise
`CREATE TABLE` records the descriptors verbatim.  `sqlFail` is the
`psycopg2.Error` branch (rollback: state unchanged, returns False). -/

abbrev TargetDB := List (List Char × List Column)

def tableExists (db : TargetDB) (tname : List Char) : Bool :=
  db.any (fun t => t.1 = tname)

def apply_schema (sqlFail : Bool) (db : TargetDB) (tname : List Char)
    (schema : List Column) : Bool × TargetDB :=
  if sqlFail then (false, db)
  else if tableExists db tname then (true, db)
  else (true, db ++ [(tname, schema)])

/-! ## Receiver row application (`handle_client_data` lines 204–235,
`insert_row` lines 95–124)

After a buffer parses, the payload is inspected: a dict with both
`schema` and `data` keys goes through `apply_schema` first (its failure
aborts the whole frame before any insert); anything else is treated as a
bare row list.  Each row is converted to a column→value dict — dict rows
verbatim, positional rows via the schema when one is in scope
(`'schema' in locals()`), else under the placeholder names
`column1`/`column2` — and passed to `insert_row`, whose result is
discarded (line 234), so one failed insert never stops the loop. -/

abbrev RowDict := List (List Char × JValue)

/-- Python dict assignment: overwrite in place, else append. -/
def dictSet (d : RowDict) (k : List Char) (v : JValue) : RowDict :=
  match d with
  | [] => [(k, v)]
  | (k2, v2) :: tl => if k2 = k then (k, v) :: tl else (k2, v2) :: dictSet tl k v

/-- `json.loads` of an object gives a Python dict: for duplicate keys the
last occurrence wins, so member lookup takes the last match. -/
def getMember (m : JMembers) (k : List Char) : Option JValue :=
  match m with
  | .nil => none
  | .cons k2 v tl =>
      match getMember tl k with
      | some w => some w
      | none => if k2 = k then some v else none

def JMembers.toPairs : JMembers → RowDict
  | .nil => []
  | .cons k v tl => (k, v) :: tl.toPairs

/-- `col['name']` of one schema entry; only string names become dict
keys in this model (the sender only produces those; other key types
would be Python-legal on foreign input but never arise here). -/
def colName (col : JValue) : Option (List Char) :=
  match col with
  | .jobj m =>
      match getMember m nameKey with
      | some (.jstr s) => some s
      | _ => none
  | _ => none

def column1Key : List Char := ['c', 'o', 'l', 'u', 'm', 'n', '1']
def column2Key : List Char := ['c', 'o', 'l', 'u', 'm', 'n', '2']

/-- The `for i, col in enumerate(schema): if i < len(row): ...` loop.
`none` models a raised KeyError (missing `name`), which the outer
`except` of `handle_client_data` turns into `return False`. -/
def buildFromSchema (vals : List JValue) : List JValue → Nat → RowDict → Option RowDict
  | [], _, d => some d
  | col :: cols, i, d =>
    match colName col with
    | some nm =>
        if h : i < vals.length then
          buildFromSchema vals cols (i + 1) (dictSet d nm (vals.get ⟨i, h⟩))
        else buildFromSchema vals cols (i + 1) d
    | none => none

/-- Convert one received row to the dict handed to `insert_row`.
Non-sequence rows (on which Python's `len(row)`/`row[i]` would raise
TypeError, aborting the handler) are modeled as `none`; string rows,
which Python would index character-wise, never occur in this protocol
and are also excluded. -/
def row_to_dict (schemaInScope : Bool) (schema : List JValue) (row : JValue) :
    Option RowDict :=
  match row with
  | .jobj m => some m.toPairs
  | .jarr elems =>
      let vals := elems.toList
      if schemaInScope then buildFromSchema vals schema 0 []
      else
        some [(column1Key, (vals.get? 0).getD .jnull),
              (column2Key, (vals.get? 1).getD .jnull)]
  | _ => none

/-- Outcome of the applying phase of `handle_client_data` for one frame:
the dicts passed to `insert_row`, in order, with each insert's outcome
drawn from the oracle `insOk` (an insert failure is caught inside
`insert_row` and logged, line 118–121). -/
inductive ApplyResult where
  | schemaFailed : ApplyResult
  | errored : List (RowDict × Bool) → ApplyResult
  | done : List (RowDict × Bool) → ApplyResult
deriving Repr

def ApplyResult.attempts : ApplyResult → List (RowDict × Bool)
  | .schemaFailed => []
  | .errored l => l
  | .done l => l

def runInserts (insOk : Nat → Bool) (schemaInScope : Bool)
    (schema : List JValue) : List JValue → Nat → List (RowDict × Bool) →
    ApplyResult
  | [], _, acc => .done acc.reverse
  | row :: rows, i, acc =>
    match row_to_dict schemaInScope schema row with
    | some d => runInserts insOk schemaInScope schema rows (i + 1) ((d, insOk i) :: acc)
    | none => .errored acc.reverse

/-- The shape dispatch of lines 204–215.  A dict payload with both keys
uses its schema; a bare list is the fallback; any other payload (a dict
missing a key iterates its string keys, a scalar raises TypeError) never
arises from this sender and is modeled as an immediate error. -/
def schemaListOf : JValue → List JValue
  | .jarr sl => sl.toList
  | _ => []

def apply_phase (applySchemaOk : Bool) (insOk : Nat → Bool) (payload : JValue) :
    ApplyResult :=
  match payload with
  | .jobj m =>
      match getMember m schemaKey, getMember m dataKey with
      | some schemaV, some (.jarr dl) =>
          if applySchemaOk then
            runInserts insOk true (schemaListOf schemaV) dl.toList 0 []
          else .schemaFailed
      | _, _ => .errored []
  | .jarr l => runInserts insOk false [] l.toList 0 []
  | _ => .errored []

/-! ## Fuel measure for the parser -/

mutual
def needV : JValue → Nat
  | .jarr l => needL l + 1
  | .jobj m => needM m + 1
  | _ => 1
def needL : JList → Nat
  | .nil => 1
  | .cons v tl => max (needV v) (needL tl) + 1
def needM : JMembers → Nat
  | .nil => 1
  | .cons _ v tl => max (needV v) (needM tl) + 1
end

/-! ## Frame well-formedness and the spec-side frame reading

`wfFrame` restricts to the frames whose `json.dumps` image this model
reproduces byte-for-byte (printable-ASCII text).  The `jTo*` functions
are the comparison side of the round-trip claim: they read a decoded
JSON payload back as a (Schema, Rows) frame, so "yields a Frame equal to
(S, R)" can be stated at the frame level. -/

def wfFrame (s : List Column) (rs : List (List Scalar)) : Bool :=
  s.all wfColumn && rs.all wfRow

def jToScalar : JValue → Option Scalar
  | .jnull => some .null
  | .jbool b => some (.b b)
  | .jint n => some (.i n)
  | .jstr s => some (.s s)
  | _ => none

def optMapList {α : Type} (f : JValue → Option α) : List JValue → Option (List α)
  | [] => some []
  | v :: tl =>
    match f v, optMapList f tl with
    | some a, some as => some (a :: as)
    | _, _ => none

def jToRow : JValue → Option (List Scalar)
  | .jarr l => optMapList jToScalar l.toList
  | _ => none

def jToColumn : JValue → Option Column
  | .jobj (.cons k1 (.jstr n) (.cons k2 (.jstr t) .nil)) =>
      if k1 = nameKey ∧ k2 = typeKey then some ⟨n, t⟩ else none
  | _ => none

def jToFrame : JValue → Option (List Column × List (List Scalar))
  | .jobj (.cons k1 sv (.cons k2 dv .nil)) =>
      if k1 = schemaKey ∧ k2 = dataKey then
        match sv, dv with
        | .jarr sl, .jarr dl =>
          match optMapList jToColumn sl.toList, optMapList jToRow dl.toList with
          | some cols, some rows => some (cols, rows)
          | _, _ => none
        | _, _ => none
      else none
  | _ => none

/-! # Proof development -/

/-! ## Decimal digits -/

theorem digitChar_isDigit : ∀ d, d < 10 → (digitChar d).isDigit = true := by decide

theorem digitChar_val : ∀ d, d < 10 → (digitChar d).toNat - 48 = d := by decide

theorem natDigitsAux_irrel (f1 : Nat) : ∀ f2 n, n < f1 → n < f2 →
    natDigitsAux f1 n = natDigitsAux f2 n := by
  induction f1 with
  | zero => omega
  | succ f1 ih =>
    intro f2 n h1 h2
    cases f2 with
    | zero => omega
    | succ f2 =>
      simp only [natDigitsAux]
      split
      · rfl
      · next h =>
        rw [ih f2 (n / 10) (by omega) (by omega)]

theorem natDigits_eq (n : Nat) : natDigits n =
    if n < 10 then [digitChar n] else natDigits (n / 10) ++ [digitChar (n % 10)] := by
  show natDigitsAux (n + 1) n = _
  simp only [natDigitsAux]
  split
  · rfl
  · next h =>
    rw [natDigitsAux_irrel n (n / 10 + 1) (n / 10) (by omega) (by omega)]
    rfl

theorem natDigits_ne_nil (n : Nat) : natDigits n ≠ [] := by
  rw [natDigits_eq]
  split
  · simp
  · simp

theorem natDigits_all_digits (n : Nat) : ∀ c ∈ natDigits n, c.isDigit = true := by
  induction n using Nat.strong_induction_on with
  | _ n ih =>
    rw [natDigits_eq]
    split
    · next h => simpa using digitChar_isDigit n h
    · next h =>
      intro c hc
      rcases List.mem_append.1 hc with h1 | h1
      · exact ih (n / 10) (Nat.div_lt_self (by omega) (by omega)) c h1
      · simp only [List.mem_singleton] at h1
        subst h1
        exact digitChar_isDigit _ (Nat.mod_lt _ (by omega))

theorem digitsToNat_append_one (l : List Char) (c : Char) :
    digitsToNat (l ++ [c]) = 10 * digitsToNat l + (c.toNat - 48) := by
  simp [digitsToNat, List.foldl_append]

theorem digitsToNat_natDigits (n : Nat) : digitsToNat (natDigits n) = n := by
  induction n using Nat.strong_induction_on with
  | _ n ih =>
    rw [natDigits_eq]
    split
    · next h =>
      simp [digitsToNat, digitChar_val n h]
    · next h =>
      rw [digitsToNat_append_one, ih (n / 10) (Nat.div_lt_self (by omega) (by omega)),
        digitChar_val _ (Nat.mod_lt _ (by omega))]
      omega

/-! ## takeWhile / dropWhile over an append whose left part satisfies `p` -/

theorem takeWhile_append_all {p : Char → Bool} {l : List Char} (r : List Char)
    (h : ∀ x ∈ l, p x = true) : (l ++ r).takeWhile p = l ++ r.takeWhile p := by
  induction l with
  | nil => simp
  | cons c tl ih =>
    simp only [List.cons_append, List.takeWhile_cons, h c (by simp)]
    rw [ih fun x hx => h x (by simp [hx])]
    simp

theorem dropWhile_append_all {p : Char → Bool} {l : List Char} (r : List Char)
    (h : ∀ x ∈ l, p x = true) : (l ++ r).dropWhile p = r.dropWhile p := by
  induction l with
  | nil => simp
  | cons c tl ih =>
    simp only [List.cons_append, List.dropWhile_cons, h c (by simp)]
    exact ih fun x hx => h x (by simp [hx])

/-- `headNotDigit rest`: the continuation cannot extend a decimal token. -/
def headNotDigit (rest : List Char) : Prop :=
  ∀ c, rest.head? = some c → c.isDigit = false

theorem headNotDigit_nil : headNotDigit [] := by
  intro c hc
  simp at hc

theorem headNotDigit_cons {c : Char} (h : c.isDigit = false) (rest : List Char) :
    headNotDigit (c :: rest) := by
  intro d hd
  simp only [List.head?_cons, Option.some_inj] at hd
  subst hd
  exact h

theorem takeWhile_not_head {rest : List Char} (h : headNotDigit rest) :
    rest.takeWhile Char.isDigit = [] := by
  cases rest with
  | nil => rfl
  | cons c tl =>
    simp [List.takeWhile_cons, h c rfl]

theorem dropWhile_not_head {rest : List Char} (h : headNotDigit rest) :
    rest.dropWhile Char.isDigit = rest := by
  cases rest with
  | nil => rfl
  | cons c tl =>
    simp [List.dropWhile_cons, h c rfl]

/-! ## Token round-trips -/

theorem natDigits_head_digit (n : Nat) :
    ∃ c cs, natDigits n = c :: cs ∧ c.isDigit = true := by
  cases hD : natDigits n with
  | nil => exact absurd hD (natDigits_ne_nil n)
  | cons c cs =>
    exact ⟨c, cs, rfl, natDigits_all_digits n c (by rw [hD]; simp)⟩

theorem parseIntTok_natDigits (m : Nat) (rest : List Char) (hrest : headNotDigit rest) :
    (natDigits m ++ rest).takeWhile Char.isDigit = natDigits m ∧
    (natDigits m ++ rest).dropWhile Char.isDigit = rest := by
  constructor
  · rw [takeWhile_append_all rest (natDigits_all_digits m), takeWhile_not_head hrest,
      List.append_nil]
  · rw [dropWhile_append_all rest (natDigits_all_digits m), dropWhile_not_head hrest]

theorem parseIntTok_dumpInt (n : Int) (rest : List Char) (hrest : headNotDigit rest) :
    parseIntTok (dumpInt n ++ rest) = some (n, rest) := by
  by_cases hn : n < 0
  · obtain ⟨htake, hdrop⟩ := parseIntTok_natDigits n.natAbs rest hrest
    simp only [dumpInt, if_pos hn, List.cons_append, parseIntTok, List.head?_cons,
      List.tail_cons, htake, hdrop, List.isEmpty_iff, natDigits_ne_nil, if_true,
      if_false, digitsToNat_natDigits, Option.some_inj, Prod.mk.injEq, and_true,
      reduceIte]
    omega
  · obtain ⟨c, cs, hD, hc⟩ := natDigits_head_digit n.toNat
    have hcm : ¬((natDigits n.toNat ++ rest).head? = some '-') := by
      rw [hD]
      simp only [List.cons_append, List.head?_cons, Option.some_inj]
      intro h
      rw [h] at hc
      exact absurd hc (by decide)
    obtain ⟨htake, hdrop⟩ := parseIntTok_natDigits n.toNat rest hrest
    simp only [dumpInt, if_neg hn, parseIntTok, if_neg hcm, htake, hdrop,
      List.isEmpty_iff, natDigits_ne_nil, if_false, digitsToNat_natDigits,
      Option.some_inj, Prod.mk.injEq, and_true]
    omega

theorem parseStrAux_flatMap (s : List Char) (rest : List Char) :
    parseStrAux (s.flatMap escChar ++ ('"' :: rest)) = some (s, rest) := by
  induction s with
  | nil => simp [parseStrAux]
  | cons c tl ih =>
    by_cases hc : c = '"' ∨ c = '\\'
    · simp only [List.flatMap_cons, escChar, if_pos hc, List.cons_append,
        List.append_assoc, List.nil_append]
      rw [parseStrAux.eq_def]
      simp only [if_pos hc, List.nil_append, ih]
    · simp only [List.flatMap_cons, escChar, if_neg hc, List.singleton_append,
        List.cons_append, List.nil_append]
      push_neg at hc
      obtain ⟨hc1, hc2⟩ := hc
      rw [parseStrAux.eq_def]
      split
      · next x heq => exact absurd heq (by simp)
      · next x r2 heq =>
        rw [List.cons.injEq] at heq
        exact absurd heq.1 hc1
      · next x c2 r2 heq =>
        rw [List.cons.injEq] at heq
        exact absurd heq.1 hc2
      · next x c2 r2 hn1 hn2 heq =>
        rw [List.cons.injEq] at heq
        obtain ⟨h1, h2⟩ := heq
        subst h1
        subst h2
        simp [ih]

/-! ## Heads of serialized values -/

theorem dumpInt_head (n : Int) :
    ∃ c cs, dumpInt n = c :: cs ∧ (c = '-' ∨ c.isDigit = true) := by
  rw [dumpInt]
  split
  · exact ⟨'-', _, rfl, Or.inl rfl⟩
  · obtain ⟨c, cs, hD, hc⟩ := natDigits_head_digit n.toNat
    exact ⟨c, cs, hD, Or.inr hc⟩

theorem intHead_ne {c : Char} (h : c = '-' ∨ c.isDigit = true) :
    c ≠ 'n' ∧ c ≠ 't' ∧ c ≠ 'f' ∧ c ≠ '"' ∧ c ≠ '[' ∧ c ≠ '{' := by
  rcases h with rfl | h
  · decide
  · refine ⟨?_, ?_, ?_, ?_, ?_, ?_⟩ <;> (intro hh; subst hh; exact absurd h (by decide))

theorem dumpV_head_ne (v : JValue) : ∃ c cs, dumpV v = c :: cs ∧ c ≠ ']' ∧ c ≠ '}' := by
  cases v with
  | jnull => exact ⟨'n', _, rfl, by decide, by decide⟩
  | jbool b =>
    cases b with
    | false => exact ⟨'f', _, rfl, by decide, by decide⟩
    | true => exact ⟨'t', _, rfl, by decide, by decide⟩
  | jint n =>
    obtain ⟨c, cs, hD, hc⟩ := dumpInt_head n
    refine ⟨c, cs, hD, ?_, ?_⟩ <;>
      (rcases hc with rfl | hc
       · decide
       · intro hh; subst hh; exact absurd hc (by decide))
  | jstr s => exact ⟨'"', _, rfl, by decide, by decide⟩
  | jarr l => exact ⟨'[', _, rfl, by decide, by decide⟩
  | jobj m => exact ⟨'{', _, rfl, by decide, by decide⟩

/-! ## Fuel positivity and sufficiency -/

theorem needV_pos (v : JValue) : 1 ≤ needV v := by
  cases v <;> simp [needV]

theorem needL_pos (l : JList) : 1 ≤ needL l := by
  cases l <;> simp [needL]

theorem needM_pos (m : JMembers) : 1 ≤ needM m := by
  cases m <;> simp [needM]

theorem dumpV_length_pos (v : JValue) : 1 ≤ (dumpV v).length := by
  obtain ⟨c, cs, hD, -, -⟩ := dumpV_head_ne v
  rw [hD]
  simp

mutual
theorem needV_le (v : JValue) : needV v ≤ (dumpV v).length := by
  cases v with
  | jnull => simpa [needV] using dumpV_length_pos .jnull
  | jbool b => simpa [needV] using dumpV_length_pos (.jbool b)
  | jint n => simpa [needV] using dumpV_length_pos (.jint n)
  | jstr s => simpa [needV] using dumpV_length_pos (.jstr s)
  | jarr l =>
    have h := needL_le l
    simp only [needV, dumpV, List.length_cons, List.length_append,
      List.length_singleton]
    omega
  | jobj m =>
    have h := needM_le m
    simp only [needV, dumpV, List.length_cons, List.length_append,
      List.length_singleton]
    omega
theorem needL_le (l : JList) : needL l ≤ (dumpList l).length + 1 := by
  cases l with
  | nil => simp [needL]
  | cons v tl =>
    have hv := needV_le v
    have hvp := dumpV_length_pos v
    cases tl with
    | nil =>
      simp only [needL, dumpList]
      omega
    | cons w tl2 =>
      have htl := needL_le (.cons w tl2)
      simp only [dumpList, List.length_append, List.length_cons] at htl ⊢
      simp only [needL] at htl ⊢
      omega
theorem needM_le (m : JMembers) : needM m ≤ (dumpMembers m).length + 1 := by
  cases m with
  | nil => simp [needM]
  | cons k v tl =>
    have hv := needV_le v
    cases tl with
    | nil =>
      simp only [needM, dumpMembers, List.length_append, List.length_cons]
      omega
    | cons k2 v2 tl2 =>
      have htl := needM_le (.cons k2 v2 tl2)
      simp only [dumpMembers, List.length_append, List.length_cons] at htl ⊢
      simp only [needM] at htl ⊢
      omega
end

/-! ## The parser inverts the serializer -/

theorem parseV_int_head (f : Nat) (c : Char) (xs : List Char)
    (h1 : c ≠ 'n') (h2 : c ≠ 't') (h3 : c ≠ 'f') (h4 : c ≠ '"') (h5 : c ≠ '[')
    (h6 : c ≠ '{') :
    parseV (f + 1) (c :: xs) =
      match parseIntTok (c :: xs) with
      | some (n, r) => some (.jint n, r)
      | none => none := by
  rw [parseV.eq_def]
  simp [h1, h2, h3, h4, h5, h6]

mutual
theorem parse_dumpV (v : JValue) (fuel : Nat) (h : needV v ≤ fuel) (rest : List Char)
    (hrest : headNotDigit rest) : parseV fuel (dumpV v ++ rest) = some (v, rest) := by
  obtain ⟨f, rfl⟩ : ∃ f, fuel = f + 1 := by
    have := needV_pos v
    cases fuel with
    | zero => omega
    | succ f => exact ⟨f, rfl⟩
  cases v with
  | jnull => simp [dumpV, parseV]
  | jbool b =>
    cases b with
    | true => simp [dumpV, parseV]
    | false => simp [dumpV, parseV]
  | jint n =>
    obtain ⟨c, cs, hD, hc⟩ := dumpInt_head n
    obtain ⟨h1, h2, h3, h4, h5, h6⟩ := intHead_ne hc
    have hinput : dumpV (.jint n) ++ rest = c :: (cs ++ rest) := by
      rw [show dumpV (.jint n) = dumpInt n from rfl, hD]
      simp
    rw [hinput, parseV_int_head f c (cs ++ rest) h1 h2 h3 h4 h5 h6,
      show c :: (cs ++ rest) = dumpInt n ++ rest by rw [hD]; simp,
      parseIntTok_dumpInt n rest hrest]
  | jstr s =>
    have hinput : dumpV (.jstr s) ++ rest
        = '"' :: (s.flatMap escChar ++ ('"' :: rest)) := by
      simp [dumpV, dumpStr]
    rw [hinput]
    simp [parseV, parseStrAux_flatMap]
  | jarr l =>
    have hf : needL l ≤ f := by
      simp only [needV] at h
      omega
    have hinput : dumpV (.jarr l) ++ rest = '[' :: (dumpList l ++ (']' :: rest)) := by
      simp [dumpV]
    rw [hinput]
    simp [parseV, parse_dumpList l f hf rest]
  | jobj m =>
    have hf : needM m ≤ f := by
      simp only [needV] at h
      omega
    have hinput : dumpV (.jobj m) ++ rest = '{' :: (dumpMembers m ++ ('}' :: rest)) := by
      simp [dumpV]
    rw [hinput]
    simp [parseV, parse_dumpMembers m f hf rest]
theorem parse_dumpList (l : JList) (fuel : Nat) (h : needL l ≤ fuel) (rest : List Char) :
    parseElems fuel (dumpList l ++ (']' :: rest)) = some (l, rest) := by
  obtain ⟨f, rfl⟩ : ∃ f, fuel = f + 1 := by
    have := needL_pos l
    cases fuel with
    | zero => omega
    | succ f => exact ⟨f, rfl⟩
  cases l with
  | nil => simp [dumpList, parseElems]
  | cons v tl =>
    obtain ⟨c, cs, hD, hne1, hne2⟩ := dumpV_head_ne v
    have hfv : needV v ≤ f := by
      simp only [needL] at h
      omega
    have hftl : needL tl ≤ f := by
      simp only [needL] at h
      omega
    cases tl with
    | nil =>
      have hinput : dumpList (.cons v .nil) ++ (']' :: rest)
          = dumpV v ++ (']' :: rest) := rfl
      rw [hinput, parseElems.eq_3]
      · simp [parse_dumpV v f hfv (']' :: rest) (headNotDigit_cons (by decide) rest)]
      · intro r hr
        rw [hD, List.cons_append, List.cons.injEq] at hr
        exact hne1 hr.1
    | cons w tl2 =>
      have hinput : dumpList (.cons v (.cons w tl2)) ++ (']' :: rest)
          = dumpV v ++ (',' :: ' ' :: (dumpList (.cons w tl2) ++ (']' :: rest))) := by
        simp [dumpList]
      rw [hinput, parseElems.eq_3]
      · rw [parse_dumpV v f hfv _ (headNotDigit_cons (by decide) _)]
        simp [parse_dumpList (.cons w tl2) f hftl rest]
      · intro r hr
        rw [hD, List.cons_append, List.cons.injEq] at hr
        exact hne1 hr.1
theorem parse_dumpMembers (m : JMembers) (fuel : Nat) (h : needM m ≤ fuel)
    (rest : List Char) :
    parseMembs fuel (dumpMembers m ++ ('}' :: rest)) = some (m, rest) := by
  obtain ⟨f, rfl⟩ : ∃ f, fuel = f + 1 := by
    have := needM_pos m
    cases fuel with
    | zero => omega
    | succ f => exact ⟨f, rfl⟩
  cases m with
  | nil => simp [dumpMembers, parseMembs]
  | cons k v tl =>
    have hfv : needV v ≤ f := by
      simp only [needM] at h
      omega
    have hftl : needM tl ≤ f := by
      simp only [needM] at h
      omega
    cases tl with
    | nil =>
      have hinput : dumpMembers (.cons k v .nil) ++ ('}' :: rest)
          = '"' :: (k.flatMap escChar
              ++ ('"' :: (':' :: ' ' :: (dumpV v ++ ('}' :: rest))))) := by
        simp [dumpMembers, dumpStr]
      rw [hinput, parseMembs.eq_3, parseStrAux_flatMap]
      simp [parse_dumpV v f hfv ('}' :: rest) (headNotDigit_cons (by decide) rest)]
    | cons k2 v2 tl2 =>
      have hinput : dumpMembers (.cons k v (.cons k2 v2 tl2)) ++ ('}' :: rest)
          = '"' :: (k.flatMap escChar
              ++ ('"' :: (':' :: ' ' :: (dumpV v
                  ++ (',' :: ' ' :: (dumpMembers (.cons k2 v2 tl2)
                      ++ ('}' :: rest))))))) := by
        simp [dumpMembers, dumpStr]
      rw [hinput, parseMembs.eq_3, parseStrAux_flatMap]
      simp [parse_dumpV v f hfv
          (',' :: ' ' :: (dumpMembers (.cons k2 v2 tl2) ++ ('}' :: rest)))
          (headNotDigit_cons (by decide) _),
        parse_dumpMembers (.cons k2 v2 tl2) f hftl rest]
end

/-! ## Head-form equations and basic parser facts -/

theorem parseV_cons (fuel : Nat) (c : Char) (rest : List Char) :
    parseV (fuel + 1) (c :: rest) =
      (if c = 'n' then
        match rest with
        | 'u' :: 'l' :: 'l' :: r => some (JValue.jnull, r)
        | _ => none
      else if c = 't' then
        match rest with
        | 'r' :: 'u' :: 'e' :: r => some (JValue.jbool true, r)
        | _ => none
      else if c = 'f' then
        match rest with
        | 'a' :: 'l' :: 's' :: 'e' :: r => some (JValue.jbool false, r)
        | _ => none
      else if c = '"' then
        match parseStrAux rest with
        | some (s, r) => some (JValue.jstr s, r)
        | none => none
      else if c = '[' then
        match parseElems fuel rest with
        | some (l, r) => some (JValue.jarr l, r)
        | none => none
      else if c = '{' then
        match parseMembs fuel rest with
        | some (m, r) => some (JValue.jobj m, r)
        | none => none
      else
        match parseIntTok (c :: rest) with
        | some (n, r) => some (JValue.jint n, r)
        | none => none) := rfl

theorem parseV_nil (fuel : Nat) : parseV fuel [] = none := by
  cases fuel <;> rfl

theorem parseElems_nil (fuel : Nat) : parseElems fuel [] = none := by
  cases fuel with
  | zero => rfl
  | succ f =>
    rw [parseElems.eq_3 _ _ (by intro r hr; simp at hr), parseV_nil]

theorem parseMembs_nil (fuel : Nat) : parseMembs fuel [] = none := by
  cases fuel with
  | zero => rfl
  | succ f =>
    rw [parseMembs.eq_4 _ _ (by intro r hr; simp at hr) (by intro r hr; simp at hr)]

/-! ## Success is monotone in fuel -/

theorem parse_mono (fuel : Nat) :
    (∀ s r, parseV fuel s = some r → parseV (fuel + 1) s = some r) ∧
    (∀ s r, parseElems fuel s = some r → parseElems (fuel + 1) s = some r) ∧
    (∀ s r, parseMembs fuel s = some r → parseMembs (fuel + 1) s = some r) := by
  induction fuel with
  | zero =>
    refine ⟨?_, ?_, ?_⟩ <;> (intro s r h; simp [parseV, parseElems, parseMembs] at h)
  | succ fuel ih =>
    obtain ⟨ihV, ihE, ihM⟩ := ih
    refine ⟨?_, ?_, ?_⟩
    · intro s r h
      cases s with
      | nil => rw [parseV_nil] at h; exact absurd h (by simp)
      | cons c rest =>
        rw [parseV_cons] at h ⊢
        by_cases h1 : c = 'n'
        · rw [if_pos h1] at h ⊢; exact h
        rw [if_neg h1] at h ⊢
        by_cases h2 : c = 't'
        · rw [if_pos h2] at h ⊢; exact h
        rw [if_neg h2] at h ⊢
        by_cases h3 : c = 'f'
        · rw [if_pos h3] at h ⊢; exact h
        rw [if_neg h3] at h ⊢
        by_cases h4 : c = '"'
        · rw [if_pos h4] at h ⊢; exact h
        rw [if_neg h4] at h ⊢
        by_cases h5 : c = '['
        · rw [if_pos h5] at h ⊢
          cases hE : parseElems fuel rest with
          | none => rw [hE] at h; exact absurd h (by simp)
          | some lr => rw [hE] at h; rw [ihE rest lr hE]; exact h
        rw [if_neg h5] at h ⊢
        by_cases h6 : c = '{'
        · rw [if_pos h6] at h ⊢
          cases hM : parseMembs fuel rest with
          | none => rw [hM] at h; exact absurd h (by simp)
          | some mr => rw [hM] at h; rw [ihM rest mr hM]; exact h
        rw [if_neg h6] at h ⊢
        exact h
    · intro s r h
      cases s with
      | nil => rw [parseElems_nil] at h; exact absurd h (by simp)
      | cons c rest =>
        by_cases hc : c = ']'
        · subst hc
          rw [parseElems.eq_2] at h ⊢
          exact h
        have hguard : ∀ r2, c :: rest = ']' :: r2 → False := by
          intro r2 hr2
          rw [List.cons.injEq] at hr2
          exact hc hr2.1
        rw [parseElems.eq_3 _ _ hguard] at h
        rw [parseElems.eq_3 _ _ hguard]
        split at h
        · next v r1 heq =>
          split at h
          · next r2 =>
            split at h
            · next l r3 heqE =>
              simpa [ihV _ _ heq, ihE _ _ heqE] using h
            · exact absurd h (by simp)
          · next r2 => simpa [ihV _ _ heq] using h
          · exact absurd h (by simp)
        · exact absurd h (by simp)
    · intro s r h
      cases s with
      | nil => rw [parseMembs_nil] at h; exact absurd h (by simp)
      | cons c rest =>
        by_cases hc : c = '}'
        · subst hc
          rw [parseMembs.eq_2] at h ⊢
          exact h
        by_cases hq : c = '"'
        · subst hq
          rw [parseMembs.eq_3] at h ⊢
          split at h
          · next k r1 heqS =>
            split at h
            · next r2 =>
              split at h
              · next v r3 heqV =>
                split at h
                · next r4 =>
                  split at h
                  · next m r5 heqM =>
                    simpa [ihV _ _ heqV, ihM _ _ heqM] using h
                  · exact absurd h (by simp)
                · next r4 => simpa [ihV _ _ heqV] using h
                · exact absurd h (by simp)
              · exact absurd h (by simp)
            · exact absurd h (by simp)
          · exact absurd h (by simp)
        have hg1 : ∀ r2, c :: rest = '}' :: r2 → False := by
          intro r2 hr2
          rw [List.cons.injEq] at hr2
          exact hc hr2.1
        have hg2 : ∀ s1, c :: rest = '"' :: s1 → False := by
          intro s1 hs1
          rw [List.cons.injEq] at hs1
          exact hq hs1.1
        rw [parseMembs.eq_4 _ _ hg1 hg2] at h
        exact absurd h (by simp)

theorem parseV_mono_le {f g : Nat} (h : f ≤ g) :
    ∀ s r, parseV f s = some r → parseV g s = some r := by
  induction g with
  | zero =>
    intro s r hp
    rw [Nat.le_zero.1 h] at hp
    exact hp
  | succ g ih =>
    intro s r hp
    rcases Nat.lt_or_ge f (g + 1) with hlt | hge
    · exact (parse_mono g).1 s r (ih (by omega) s r hp)
    · rw [show f = g + 1 by omega] at hp
      exact hp

/-! ## Extension: a successful parse is unchanged by appending bytes -/

theorem dropWhile_head_false {p : Char → Bool} {l : List Char} {c : Char} {cs : List Char}
    (h : l.dropWhile p = c :: cs) : p c = false := by
  induction l with
  | nil => simp at h
  | cons a tl ih =>
    rw [List.dropWhile_cons] at h
    split at h
    · exact ih h
    · next hpa =>
      rw [List.cons.injEq] at h
      rw [← h.1]
      simpa using hpa

theorem takeDrop_ext {p : Char → Bool} {t : List Char} {c : Char} {cs : List Char}
    (h : t.dropWhile p = c :: cs) (ext : List Char) :
    (t ++ ext).takeWhile p = t.takeWhile p ∧
    (t ++ ext).dropWhile p = t.dropWhile p ++ ext := by
  have hall : ∀ x ∈ t.takeWhile p, p x = true := fun x hx => List.mem_takeWhile_imp hx
  have hc : p c = false := dropWhile_head_false h
  have e1 : t ++ ext = t.takeWhile p ++ (t.dropWhile p ++ ext) := by
    rw [← List.append_assoc, List.takeWhile_append_dropWhile]
  constructor
  · rw [e1, takeWhile_append_all _ hall, h, List.cons_append, List.takeWhile_cons, hc]
    simp
  · rw [e1, dropWhile_append_all _ hall, h, List.cons_append, List.dropWhile_cons, hc]
    simp

theorem parseStrAux_ext : ∀ (s : List Char) {t rem : List Char} (ext : List Char),
    parseStrAux s = some (t, rem) → parseStrAux (s ++ ext) = some (t, rem ++ ext) := by
  intro s
  induction s using parseStrAux.induct with
  | case1 =>
    intro t rem ext h
    simp [parseStrAux] at h
  | case2 rest =>
    intro t rem ext h
    rw [parseStrAux] at h
    rw [List.cons_append, parseStrAux]
    simp only [Option.some_inj, Prod.mk.injEq] at h ⊢
    exact ⟨h.1, by rw [← h.2]⟩
  | case3 c rest hcond s0 r0 heq0 ih =>
    intro t rem ext h
    rw [parseStrAux.eq_3, if_pos hcond] at h
    rw [List.cons_append, List.cons_append, parseStrAux.eq_3, if_pos hcond]
    split at h
    · next t2 r2 heq =>
      rw [ih ext heq]
      simpa using h
    · exact absurd h (by simp)
  | case4 c rest hcond heq0 ih =>
    intro t rem ext h
    rw [parseStrAux.eq_3, if_pos hcond, heq0] at h
    exact absurd h (by simp)
  | case5 c rest hcond =>
    intro t rem ext h
    rw [parseStrAux.eq_3, if_neg hcond] at h
    exact absurd h (by simp)
  | case6 c rest hne1 hne2 s0 r0 heq ih =>
    intro t rem ext h
    by_cases hbs : c = '\\'
    · subst hbs
      cases rest with
      | nil => simp [parseStrAux] at heq
      | cons c1 r1 => exact absurd rfl (hne2 c1 r1 rfl)
    · rw [parseStrAux.eq_4 _ _ hne1 hne2] at h
      rw [List.cons_append,
        parseStrAux.eq_4 _ _ hne1 (fun c1 r1 hcc _ => hbs hcc)]
      rw [heq] at h
      rw [ih ext heq]
      simpa using h
  | case7 c rest hne1 hne2 heq =>
    intro t rem ext h
    rw [parseStrAux.eq_4 _ _ hne1 hne2, heq] at h
    exact absurd h (by simp)

theorem parseIntTok_ext {s : List Char} {n : Int} {rem : List Char} (ext : List Char)
    (h : parseIntTok s = some (n, rem)) (hrem : rem ≠ []) :
    parseIntTok (s ++ ext) = some (n, rem ++ ext) := by
  cases s with
  | nil => simp [parseIntTok] at h
  | cons c t =>
    rw [parseIntTok, List.head?_cons] at h
    by_cases hc : c = '-'
    · subst hc
      rw [if_pos rfl, List.tail_cons] at h
      split at h
      · exact absurd h (by simp)
      · next hne =>
        rw [Option.some_inj, Prod.mk.injEq] at h
        obtain ⟨hn, hr⟩ := h
        obtain ⟨d, ds, hdrop⟩ : ∃ d ds, t.dropWhile Char.isDigit = d :: ds := by
          rw [hr]
          cases rem with
          | nil => exact absurd rfl hrem
          | cons d ds => exact ⟨d, ds, rfl⟩
        obtain ⟨htake, hdropext⟩ := takeDrop_ext hdrop ext
        rw [List.cons_append, parseIntTok, List.head?_cons, if_pos rfl, List.tail_cons,
          htake, if_neg hne, hn, hdropext, hr]
    · rw [if_neg (by simp [hc])] at h
      split at h
      · exact absurd h (by simp)
      · next hne =>
        rw [Option.some_inj, Prod.mk.injEq] at h
        obtain ⟨hn, hr⟩ := h
        obtain ⟨d, ds, hdrop⟩ : ∃ d ds, (c :: t).dropWhile Char.isDigit = d :: ds := by
          rw [hr]
          cases rem with
          | nil => exact absurd rfl hrem
          | cons d ds => exact ⟨d, ds, rfl⟩
        obtain ⟨htake, hdropext⟩ := takeDrop_ext hdrop ext
        rw [List.cons_append] at htake hdropext
        rw [List.cons_append, parseIntTok, List.head?_cons, if_neg (by simp [hc]),
          htake, if_neg hne, hn, hdropext, hr]

theorem parse_ext (fuel : Nat) :
    (∀ s v rem ext, parseV fuel s = some (v, rem) →
      (rem ≠ [] ∨ (∀ c, s.head? = some c → c.isDigit = false ∧ c ≠ '-')) →
      parseV fuel (s ++ ext) = some (v, rem ++ ext)) ∧
    (∀ s l rem ext, parseElems fuel s = some (l, rem) →
      parseElems fuel (s ++ ext) = some (l, rem ++ ext)) ∧
    (∀ s m rem ext, parseMembs fuel s = some (m, rem) →
      parseMembs fuel (s ++ ext) = some (m, rem ++ ext)) := by
  induction fuel with
  | zero =>
    refine ⟨?_, ?_, ?_⟩
    · intro s v rem ext h _
      simp [parseV] at h
    · intro s l rem ext h
      simp [parseElems] at h
    · intro s m rem ext h
      simp [parseMembs] at h
  | succ fuel ih =>
    obtain ⟨ihV, ihE, ihM⟩ := ih
    refine ⟨?_, ?_, ?_⟩
    · intro s v rem ext h hcond
      cases s with
      | nil => rw [parseV_nil] at h; exact absurd h (by simp)
      | cons c rest =>
        rw [parseV_cons] at h
        rw [List.cons_append, parseV_cons]
        by_cases h1 : c = 'n'
        · rw [if_pos h1] at h ⊢
          split at h
          · next r =>
            rw [Option.some_inj, Prod.mk.injEq] at h
            obtain ⟨hv, hr⟩ := h
            subst hv
            subst hr
            simp
          · exact absurd h (by simp)
        rw [if_neg h1] at h ⊢
        by_cases h2 : c = 't'
        · rw [if_pos h2] at h ⊢
          split at h
          · next r =>
            rw [Option.some_inj, Prod.mk.injEq] at h
            obtain ⟨hv, hr⟩ := h
            subst hv
            subst hr
            simp
          · exact absurd h (by simp)
        rw [if_neg h2] at h ⊢
        by_cases h3 : c = 'f'
        · rw [if_pos h3] at h ⊢
          split at h
          · next r =>
            rw [Option.some_inj, Prod.mk.injEq] at h
            obtain ⟨hv, hr⟩ := h
            subst hv
            subst hr
            simp
          · exact absurd h (by simp)
        rw [if_neg h3] at h ⊢
        by_cases h4 : c = '"'
        · rw [if_pos h4] at h ⊢
          split at h
          · next t2 r2 heq =>
            rw [parseStrAux_ext rest ext heq]
            rw [Option.some_inj, Prod.mk.injEq] at h
            obtain ⟨hv, hr⟩ := h
            subst hv
            subst hr
            simp
          · exact absurd h (by simp)
        rw [if_neg h4] at h ⊢
        by_cases h5 : c = '['
        · rw [if_pos h5] at h ⊢
          split at h
          · next l2 r2 heq =>
            rw [ihE rest l2 r2 ext heq]
            rw [Option.some_inj, Prod.mk.injEq] at h
            obtain ⟨hv, hr⟩ := h
            subst hv
            subst hr
            simp
          · exact absurd h (by simp)
        rw [if_neg h5] at h ⊢
        by_cases h6 : c = '{'
        · rw [if_pos h6] at h ⊢
          split at h
          · next m2 r2 heq =>
            rw [ihM rest m2 r2 ext heq]
            rw [Option.some_inj, Prod.mk.injEq] at h
            obtain ⟨hv, hr⟩ := h
            subst hv
            subst hr
            simp
          · exact absurd h (by simp)
        rw [if_neg h6] at h ⊢
        split at h
        · next n r2 heq =>
          rw [Option.some_inj, Prod.mk.injEq] at h
          obtain ⟨hv, hr⟩ := h
          rcases hcond with hne | hhead
          · rw [← hr] at hne
            have hext := parseIntTok_ext ext heq hne
            rw [List.cons_append] at hext
            rw [hext]
            subst hv
            subst hr
            simp
          · obtain ⟨hd, hm⟩ := hhead c rfl
            rw [parseIntTok, List.head?_cons, if_neg (by simp [hm]),
              List.takeWhile_cons, hd] at heq
            simp at heq
        · exact absurd h (by simp)
    · intro s l rem ext h
      cases s with
      | nil => rw [parseElems_nil] at h; exact absurd h (by simp)
      | cons c rest =>
        by_cases hc : c = ']'
        · subst hc
          rw [parseElems.eq_2] at h
          rw [List.cons_append, parseElems.eq_2]
          rw [Option.some_inj, Prod.mk.injEq] at h
          obtain ⟨hl, hr⟩ := h
          subst hl
          subst hr
          rfl
        have hguard : ∀ r2, c :: rest = ']' :: r2 → False := by
          intro r2 hr2
          rw [List.cons.injEq] at hr2
          exact hc hr2.1
        have hguard2 : ∀ r2, (c :: rest) ++ ext = ']' :: r2 → False := by
          intro r2 hr2
          rw [List.cons_append, List.cons.injEq] at hr2
          exact hc hr2.1
        rw [parseElems.eq_3 _ _ hguard] at h
        rw [parseElems.eq_3 _ _ hguard2]
        split at h
        · next v r1 heq =>
          split at h
          · next r2 =>
            split at h
            · next l2 r3 heqE =>
              rw [ihV (c :: rest) v _ ext heq (Or.inl (by simp))]
              rw [Option.some_inj, Prod.mk.injEq] at h
              obtain ⟨hl, hr⟩ := h
              subst hl
              subst hr
              simp [ihE r2 l2 r3 ext heqE]
            · exact absurd h (by simp)
          · next r2 =>
            rw [ihV (c :: rest) v _ ext heq (Or.inl (by simp))]
            rw [Option.some_inj, Prod.mk.injEq] at h
            obtain ⟨hl, hr⟩ := h
            subst hl
            subst hr
            simp
          · exact absurd h (by simp)
        · exact absurd h (by simp)
    · intro s m rem ext h
      cases s with
      | nil => rw [parseMembs_nil] at h; exact absurd h (by simp)
      | cons c rest =>
        by_cases hc : c = '}'
        · subst hc
          rw [parseMembs.eq_2] at h
          rw [List.cons_append, parseMembs.eq_2]
          rw [Option.some_inj, Prod.mk.injEq] at h
          obtain ⟨hm, hr⟩ := h
          subst hm
          subst hr
          rfl
        by_cases hq : c = '"'
        · subst hq
          rw [parseMembs.eq_3] at h
          rw [List.cons_append, parseMembs.eq_3]
          split at h
          · next k r1 heqS =>
            rw [parseStrAux_ext rest ext heqS]
            split at h
            · next r2 =>
              split at h
              · next v r3 heqV =>
                split at h
                · next r4 =>
                  split at h
                  · next m2 r5 heqM =>
                    rw [Option.some_inj, Prod.mk.injEq] at h
                    obtain ⟨hm, hr⟩ := h
                    subst hm
                    subst hr
                    have hVe := ihV r2 v _ ext heqV (Or.inl (by simp))
                    simp [hVe, ihM r4 m2 r5 ext heqM]
                  · exact absurd h (by simp)
                · next r4 =>
                  rw [Option.some_inj, Prod.mk.injEq] at h
                  obtain ⟨hm, hr⟩ := h
                  subst hm
                  subst hr
                  have hVe := ihV r2 v _ ext heqV (Or.inl (by simp))
                  simp [hVe]
                · exact absurd h (by simp)
              · exact absurd h (by simp)
            · exact absurd h (by simp)
          · exact absurd h (by simp)
        have hg1 : ∀ r2, c :: rest = '}' :: r2 → False := by
          intro r2 hr2
          rw [List.cons.injEq] at hr2
          exact hc hr2.1
        have hg2 : ∀ s1, c :: rest = '"' :: s1 → False := by
          intro s1 hs1
          rw [List.cons.injEq] at hs1
          exact hq hs1.1
        rw [parseMembs.eq_4 _ _ hg1 hg2] at h
        exact absurd h (by simp)

/-! ## `json.loads` on complete documents, strict prefixes, and chunked input -/

theorem json_loads_dumpV (v : JValue) : json_loads (dumpV v) = some v := by
  have h1 : needV v ≤ (dumpV v).length + 1 := Nat.le_succ_of_le (needV_le v)
  have h2 := parse_dumpV v ((dumpV v).length + 1) h1 [] headNotDigit_nil
  rw [List.append_nil] at h2
  rw [json_loads, h2]

/-- A strict prefix of a serialized top-level object is not a complete
document: `json.loads` keeps failing until the last byte arrives. -/
theorem json_loads_prefix_none (m : JMembers) {p q : List Char}
    (hpq : dumpV (.jobj m) = p ++ q) (hq : q ≠ []) :
    json_loads p = none := by
  rw [json_loads]
  cases hP : parseV (p.length + 1) p with
  | none => rfl
  | some wr =>
    obtain ⟨w, rem⟩ := wr
    cases rem with
    | cons a as => rfl
    | nil =>
      exfalso
      cases p with
      | nil => rw [parseV_nil] at hP; exact absurd hP (by simp)
      | cons c p1 =>
        have hhead : '{' :: (dumpMembers m ++ ['}']) = c :: (p1 ++ q) := by
          rw [show '{' :: (dumpMembers m ++ ['}']) = dumpV (.jobj m) from rfl, hpq]
          simp
        have hc : c = '{' := by
          rw [List.cons.injEq] at hhead
          exact hhead.1.symm
        have hOr : ([] : List Char) ≠ [] ∨
            (∀ ch, (c :: p1).head? = some ch → ch.isDigit = false ∧ ch ≠ '-') := by
          refine Or.inr ?_
          intro ch hch
          rw [List.head?_cons, Option.some_inj] at hch
          rw [← hch, hc]
          exact ⟨by decide, by decide⟩
        have hext := (parse_ext ((c :: p1).length + 1)).1 (c :: p1) w [] q hP hOr
        have hrt := parse_dumpV (.jobj m) (needV (.jobj m)) le_rfl [] headNotDigit_nil
        rw [List.append_nil] at hrt
        have hA := parseV_mono_le
          (Nat.le_max_left ((c :: p1).length + 1) (needV (.jobj m))) _ _ hext
        have hB := parseV_mono_le
          (Nat.le_max_right ((c :: p1).length + 1) (needV (.jobj m))) _ _ hrt
        rw [hpq] at hB
        simp only [List.cons_append, List.nil_append] at hA hB
        rw [hA] at hB
        rw [Option.some_inj, Prod.mk.injEq] at hB
        exact hq hB.2

/-- The receiver loop on any chunking of one serialized object: every
proper accumulation fails to parse, the full buffer parses to the
object. -/
theorem recvLoop_chunks (m : JMembers) :
    ∀ (chunks : List (List Char)) (buf : List Char),
      (∀ ch ∈ chunks, ch ≠ []) → chunks ≠ [] →
      buf ++ chunks.flatten = dumpV (.jobj m) →
      recvLoop chunks buf = some (.jobj m) := by
  intro chunks
  induction chunks with
  | nil =>
    intro buf _ hne _
    exact absurd rfl hne
  | cons ch rest ih =>
    intro buf hch _ hjoin
    rw [recvLoop, if_neg (by simpa using hch ch (by simp))]
    by_cases hrest : rest = []
    · subst hrest
      have hfull : buf ++ ch = dumpV (.jobj m) := by
        simpa using hjoin
      rw [hfull, json_loads_dumpV]
    · have hq : rest.flatten ≠ [] := by
        cases rest with
        | nil => exact absurd rfl hrest
        | cons ch2 rest2 =>
          have h2 : ch2 ≠ [] := hch ch2 (by simp)
          cases ch2 with
          | nil => exact absurd rfl h2
          | cons a as => simp
      have hsplit : dumpV (.jobj m) = (buf ++ ch) ++ rest.flatten := by
        rw [← hjoin]
        simp
      rw [json_loads_prefix_none m hsplit hq]
      exact ih (buf ++ ch) (fun x hx => hch x (by simp [hx])) hrest hsplit.symm

/-! ## Reading a decoded payload back as a (Schema, Rows) frame -/

theorem jToScalar_scalarJ (x : Scalar) : jToScalar (scalarJ x) = some x := by
  cases x <;> rfl

theorem toList_ofList (l : List JValue) : (JList.ofList l).toList = l := by
  induction l with
  | nil => rfl
  | cons v tl ih => simp [JList.ofList, JList.toList, ih]

theorem optMapList_jToScalar (r : List Scalar) :
    optMapList jToScalar (r.map scalarJ) = some r := by
  induction r with
  | nil => rfl
  | cons x tl ih => simp [optMapList, jToScalar_scalarJ, ih]

theorem jToRow_rowJ (r : List Scalar) : jToRow (rowJ r) = some r := by
  simp [jToRow, rowJ, toList_ofList, optMapList_jToScalar]

theorem jToColumn_columnJ (c : Column) : jToColumn (columnJ c) = some c := by
  simp [jToColumn, columnJ]

theorem optMapList_jToColumn (s : List Column) :
    optMapList jToColumn (s.map columnJ) = some s := by
  induction s with
  | nil => rfl
  | cons c tl ih => simp [optMapList, jToColumn_columnJ, ih]

theorem optMapList_jToRow (rs : List (List Scalar)) :
    optMapList jToRow (rs.map rowJ) = some rs := by
  induction rs with
  | nil => rfl
  | cons r tl ih => simp [optMapList, jToRow_rowJ, ih]

theorem jToFrame_payloadJ (s : List Column) (rs : List (List Scalar)) :
    jToFrame (payloadJ s rs) = some (s, rs) := by
  simp [jToFrame, payloadJ, schemaJ, rowsJ, toList_ofList, optMapList_jToColumn,
    optMapList_jToRow]

/-! # Claim theorems -/

/-- Claim C1, counterexample.  The wire format is not self-delimiting:
when the first chunk carries the complete first frame plus one byte of a
following frame, the receiver's parse-the-whole-buffer completion test
never succeeds, so decoding never yields the first frame (the loop
consumes the entire stream and returns nothing), refuting the claim that
any chunking including a following frame's bytes decodes to (S, R). -/
theorem c1_two_frames_counterexample :
    handle_client_data
        [encodeFrame [] [[Scalar.i 1]] ++ (encodeFrame [] [[Scalar.i 2]]).take 1,
         (encodeFrame [] [[Scalar.i 2]]).drop 1]
      = none ∧
    handle_client_data
        [encodeFrame [] [[Scalar.i 1]] ++ (encodeFrame [] [[Scalar.i 2]]).take 1,
         (encodeFrame [] [[Scalar.i 2]]).drop 1]
      ≠ some (payloadJ [] [[Scalar.i 1]]) := by
  refine ⟨by decide, ?_⟩
  intro h
  rw [show handle_client_data
        [encodeFrame [] [[Scalar.i 1]] ++ (encodeFrame [] [[Scalar.i 2]]).take 1,
         (encodeFrame [] [[Scalar.i 2]]).drop 1] = none by decide] at h
  exact absurd h (by simp)

/-- Claim C1 (amended): for every well-formed frame (S, R) that the
sender encodes with `send_data_over_socket` (byte stream
`encodeFrame S R`), if exactly that frame's bytes are delivered, split
into arbitrary nonempty chunks — one-byte-at-a-time included — then
`handle_client_data` decodes the payload `payloadJ S R`, which reads back
as the frame (S, R).  The original claim's further case, bytes of a
following frame arriving in the same chunk, is false
(`c1_two_frames_counterexample`): frame completion is detected by
re-parsing the accumulating buffer, not by a self-delimiting format. -/
theorem c1_frame_roundtrip (S : List Column) (R : List (List Scalar))
    (_hwf : wfFrame S R = true) (chunks : List (List Char))
    (hch : ∀ ch ∈ chunks, ch ≠ [])
    (hjoin : chunks.flatten = encodeFrame S R) :
    handle_client_data chunks = some (payloadJ S R) ∧
    jToFrame (payloadJ S R) = some (S, R) := by
  refine ⟨?_, jToFrame_payloadJ S R⟩
  have hne : chunks ≠ [] := by
    intro h
    subst h
    have hpos := dumpV_length_pos (payloadJ S R)
    rw [show encodeFrame S R = dumpV (payloadJ S R) from rfl] at hjoin
    rw [← hjoin] at hpos
    simp at hpos
  exact recvLoop_chunks
    (.cons schemaKey (schemaJ S) (.cons dataKey (rowsJ R) .nil))
    chunks [] hch hne (by simpa using hjoin)

/-- Claim C1, witness: a two-column frame with one row, delivered one
byte at a time, decodes back to itself. -/
theorem c1_frame_roundtrip_witness :
    wfFrame [⟨['i', 'd'], ['I', 'N', 'T']⟩] [[Scalar.i 1, Scalar.s ['a']]] = true ∧
    (∀ ch ∈ (encodeFrame [⟨['i', 'd'], ['I', 'N', 'T']⟩]
        [[Scalar.i 1, Scalar.s ['a']]]).map (fun c => [c]), ch ≠ []) ∧
    ((encodeFrame [⟨['i', 'd'], ['I', 'N', 'T']⟩]
        [[Scalar.i 1, Scalar.s ['a']]]).map (fun c => [c])).flatten
      = encodeFrame [⟨['i', 'd'], ['I', 'N', 'T']⟩] [[Scalar.i 1, Scalar.s ['a']]] ∧
    handle_client_data
        ((encodeFrame [⟨['i', 'd'], ['I', 'N', 'T']⟩]
          [[Scalar.i 1, Scalar.s ['a']]]).map (fun c => [c]))
      = some (payloadJ [⟨['i', 'd'], ['I', 'N', 'T']⟩] [[Scalar.i 1, Scalar.s ['a']]]) ∧
    jToFrame (payloadJ [⟨['i', 'd'], ['I', 'N', 'T']⟩] [[Scalar.i 1, Scalar.s ['a']]])
      = some ([⟨['i', 'd'], ['I', 'N', 'T']⟩], [[Scalar.i 1, Scalar.s ['a']]]) := by
  refine ⟨by decide, by decide, by decide, ?_⟩
  exact c1_frame_roundtrip _ _ (by decide) _ (by decide) (by decide)

/-! ## The transmission loop sends every byte or reports failure -/

theorem sendAll_spec (len : Nat) :
    ∀ (outs : List (Option Nat)) (total : Nat), total ≤ len →
      validSends len outs total = true →
      (sendAll len outs total).2 ≤ len ∧
      ((sendAll len outs total).1 = true ↔ (sendAll len outs total).2 = len) := by
  intro outs
  induction outs with
  | nil =>
    intro total h _
    rw [sendAll]
    split
    · next hle => simpa using ⟨h, by omega⟩
    · next hlt =>
      simp only
      refine ⟨h, ?_⟩
      simp only [Bool.false_eq_true, false_iff]
      omega
  | cons o rest ih =>
    intro total h hv
    match o with
    | none =>
      rw [sendAll]
      split
      · next hle => simpa using ⟨h, by omega⟩
      · next hlt =>
        simp only
        refine ⟨h, ?_⟩
        simp only [Bool.false_eq_true, false_iff]
        omega
    | some 0 =>
      rw [sendAll]
      split
      · next hle => simpa using ⟨h, by omega⟩
      · next hlt =>
        simp only
        refine ⟨h, ?_⟩
        simp only [Bool.false_eq_true, false_iff]
        omega
    | some (n + 1) =>
      rw [sendAll]
      split
      · next hle => simpa using ⟨h, by omega⟩
      · next hlt =>
        rw [validSends, if_neg hlt, Bool.and_eq_true] at hv
        have h1 : total + (n + 1) ≤ len := by simpa using hv.1
        exact ih (total + (n + 1)) h1 hv.2

/-- Claim C9: `send_data_over_socket` loops over the socket's partial
writes; under the socket contract (each `send` accepts at most the bytes
it was offered), it returns True exactly when the byte count handed to
the socket equals the length of the encoded frame, and False on a send
exception, a zero-byte send (broken connection), or an incomplete
write. -/
theorem c9_send_all_bytes (outs : List (Option Nat)) (S : List Column)
    (R : List (List Scalar))
    (hvalid : validSends (encodeFrame S R).length outs 0 = true) :
    (send_data_over_socket outs S R).2 ≤ (encodeFrame S R).length ∧
    ((send_data_over_socket outs S R).1 = true ↔
      (send_data_over_socket outs S R).2 = (encodeFrame S R).length) := by
  exact sendAll_spec (encodeFrame S R).length outs 0 (Nat.zero_le _) hvalid

/-- Claim C9, witness: a frame of 29 bytes delivered by two partial
writes of 5 and 24 bytes succeeds with all bytes sent; dropping the
second write leaves the loop incomplete and not successful. -/
theorem c9_send_all_bytes_witness :
    validSends (encodeFrame [] [[Scalar.i 1]]).length [some 5, some 24] 0 = true ∧
    (send_data_over_socket [some 5, some 24] [] [[Scalar.i 1]]).1 = true ∧
    (send_data_over_socket [some 5, some 24] [] [[Scalar.i 1]]).2
      = (encodeFrame [] [[Scalar.i 1]]).length ∧
    (send_data_over_socket [some 5] [] [[Scalar.i 1]]).1 = false := by
  refine ⟨by decide, ?_, by decide, by decide⟩
  exact (c9_send_all_bytes [some 5, some 24] [] [[Scalar.i 1]] (by decide)).2.2
    (by decide)

/-! ## Sync-cycle claims -/

/-- Claim C2: if extraction fails (the query's error result), or the
connection cannot be opened, or `send_data_over_socket` returns False,
the persisted cursor after the cycle equals the cursor before it and no
save happens; and a save happens only after a confirmed send of a frame
containing rows. -/
theorem c2_no_cursor_advance_on_failure (qfail connectOk sendOk : Bool)
    (table : List DBRow) (catalog : List Column) (cursor : Int) :
    ((qfail = true ∨ connectOk = false ∨ sendOk = false) →
      (sync_cycle qfail connectOk sendOk table catalog cursor).cursor = cursor ∧
      (sync_cycle qfail connectOk sendOk table catalog cursor).saved = false) ∧
    ((sync_cycle qfail connectOk sendOk table catalog cursor).saved = true →
      sendOk = true ∧ (query_table qfail table catalog cursor).data ≠ []) := by
  cases qfail with
  | true =>
    refine ⟨fun _ => ?_, fun hs => ?_⟩
    · simp [sync_cycle, query_table]
    · rw [show (sync_cycle true connectOk sendOk table catalog cursor).saved = false
        by simp [sync_cycle, query_table]] at hs
      exact absurd hs (by simp)
  | false =>
    cases connectOk with
    | false =>
      refine ⟨fun _ => ?_, fun hs => ?_⟩
      · simp only [sync_cycle]
        split
        · simp
        · simp
      · rw [show (sync_cycle false false sendOk table catalog cursor).saved = false by
          simp only [sync_cycle]
          split
          · simp
          · simp] at hs
        exact absurd hs (by simp)
    | true =>
      cases sendOk with
      | false =>
        refine ⟨fun _ => ?_, fun hs => ?_⟩
        · simp only [sync_cycle]
          split
          · simp
          · simp
        · rw [show (sync_cycle false true false table catalog cursor).saved = false by
            simp only [sync_cycle]
            split
            · simp
            · simp] at hs
          exact absurd hs (by simp)
      | true =>
        refine ⟨fun hfail => ?_, fun hs => ?_⟩
        · rcases hfail with h | h | h <;> exact absurd h (by simp)
        · refine ⟨rfl, ?_⟩
          intro hdata
          rw [show (sync_cycle false true true table catalog cursor).saved = false by
            simp only [sync_cycle]
            split
            · simp [hdata]
            · rfl] at hs
          exact absurd hs (by simp)

/-- Claim C2, witness: a cycle whose send fails leaves the cursor at 7
and saves nothing, and a saved cycle did send a frame with rows. -/
theorem c2_no_cursor_advance_on_failure_witness :
    ((true = true ∨ false = false ∨ false = false) →
      (sync_cycle true false false [⟨9, []⟩] [] 7).cursor = 7 ∧
      (sync_cycle true false false [⟨9, []⟩] [] 7).saved = false) ∧
    ((sync_cycle true false false [⟨9, []⟩] [] 7).saved = true →
      false = true ∧ (query_table true [⟨9, []⟩] [] 7).data ≠ []) := by
  exact c2_no_cursor_advance_on_failure true false false [⟨9, []⟩] [] 7

/-- Claim C7: when extraction succeeds but yields no rows and no schema
is pending, the sender opens no connection, attempts no send, and the
cursor is unchanged. -/
theorem c7_empty_cycle (connectOk sendOk : Bool) (table : List DBRow)
    (catalog : List Column) (cursor : Int)
    (hdata : (query_table false table catalog cursor).data = [])
    (hschema : (query_table false table catalog cursor).schema = []) :
    (sync_cycle false connectOk sendOk table catalog cursor).openedConn = false ∧
    (sync_cycle false connectOk sendOk table catalog cursor).attempted = none ∧
    (sync_cycle false connectOk sendOk table catalog cursor).cursor = cursor := by
  simp [sync_cycle, hdata, hschema]

/-- Claim C7, witness: cursor 4 with no row past 4 opens no connection
and keeps the cursor. -/
theorem c7_empty_cycle_witness :
    (query_table false [⟨4, []⟩] [⟨['i', 'd'], ['i', 'n', 't']⟩] 4).data = [] ∧
    (query_table false [⟨4, []⟩] [⟨['i', 'd'], ['i', 'n', 't']⟩] 4).schema = [] ∧
    (sync_cycle false true true [⟨4, []⟩] [⟨['i', 'd'], ['i', 'n', 't']⟩] 4).openedConn
      = false ∧
    (sync_cycle false true true [⟨4, []⟩] [⟨['i', 'd'], ['i', 'n', 't']⟩] 4).attempted
      = none ∧
    (sync_cycle false true true [⟨4, []⟩] [⟨['i', 'd'], ['i', 'n', 't']⟩] 4).cursor = 4 := by
  refine ⟨by decide, by decide, ?_⟩
  have h := c7_empty_cycle true true [⟨4, []⟩] [⟨['i', 'd'], ['i', 'n', 't']⟩] 4
    (by decide) (by decide)
  exact ⟨h.1, h.2.1, h.2.2⟩

/-- Claim C8, counterexample: a run restarted with persisted cursor 3
has its first cycle extract successfully (and even transmit a row), yet
`query_table_schema` is not called, because the code's criterion is
`last_sent_id == 0`, not "first successful cycle of the process
lifetime". -/
theorem c8_counterexample :
    (sync_cycle false true true [⟨4, []⟩] [⟨['i', 'd'], ['i', 'n', 't']⟩] 3).saved
      = true ∧
    (sync_cycle false true true [⟨4, []⟩] [⟨['i', 'd'], ['i', 'n', 't']⟩] 3).schemaRead
      = false := by
  decide

/-- Claim C8 (amended): the sender reads the table schema exactly in the
cycles whose extraction succeeds while the cursor equals 0 (the
beginning sentinel): on a fresh run the first cycle reads it and, once a
row has been transmitted (cursor > 0), no later cycle does; but a run
restarted with a persisted cursor other than 0 never reads it, and while
the cursor remains 0 every cycle re-reads it. -/
theorem c8_schema_read_iff (qfail connectOk sendOk : Bool) (table : List DBRow)
    (catalog : List Column) (cursor : Int) :
    (sync_cycle qfail connectOk sendOk table catalog cursor).schemaRead = true ↔
      (qfail = false ∧ cursor = 0) := by
  have hsr : (sync_cycle qfail connectOk sendOk table catalog cursor).schemaRead
      = (!qfail && decide (cursor = 0)) := by
    simp only [sync_cycle]
    split
    · split
      · split
        · split
          · rfl
          · rfl
        · rfl
      · rfl
    · rfl
  rw [hsr]
  cases qfail <;> simp

/-! ## Extraction-query facts -/

theorem sorted_le_getLast {l : List DBRow} (hs : List.Sorted rowLe l) (hne : l ≠ []) :
    ∀ r ∈ l, r.id ≤ (l.getLast hne).id := by
  induction l with
  | nil => intro r hr; simp at hr
  | cons a tl ih =>
    intro r hr
    cases tl with
    | nil =>
      simp only [List.mem_singleton] at hr
      subst hr
      simp [List.getLast]
    | cons b tl2 =>
      rw [List.getLast_cons (by simp)]
      rw [List.sorted_cons] at hs
      rcases List.mem_cons.1 hr with rfl | hr2
      · have hmem := List.getLast_mem (l := b :: tl2) (by simp)
        exact hs.1 _ hmem
      · exact ih hs.2 (by simp) r hr2

theorem query_table_eq (table : List DBRow) (catalog : List Column) (c : Int) :
    query_table false table catalog c
      = ⟨if c = 0 then query_table_schema catalog else [],
         if c > 0 then (table.filter (fun r => c < r.id)).insertionSort rowLe
         else table.insertionSort rowLe,
         match (if c > 0 then (table.filter (fun r => c < r.id)).insertionSort rowLe
           else table.insertionSort rowLe).getLast? with
         | some r => r.id
         | none => c⟩ := rfl

theorem query_table_sorted (table : List DBRow) (catalog : List Column) (c : Int) :
    List.Sorted rowLe (query_table false table catalog c).data := by
  rw [query_table_eq]
  simp only
  split
  · exact List.sorted_insertionSort rowLe _
  · exact List.sorted_insertionSort rowLe _

theorem query_table_mem {table : List DBRow} {catalog : List Column} {c : Int}
    {r : DBRow} (hr : r ∈ (query_table false table catalog c).data) : r ∈ table := by
  rw [query_table_eq] at hr
  simp only at hr
  split at hr
  · have := (List.perm_insertionSort rowLe _).mem_iff.1 hr
    exact List.mem_of_mem_filter this
  · exact (List.perm_insertionSort rowLe _).mem_iff.1 hr

theorem query_table_gt {table : List DBRow} {catalog : List Column} {c : Int}
    (hc : 0 < c) {r : DBRow} (hr : r ∈ (query_table false table catalog c).data) :
    c < r.id := by
  rw [query_table_eq] at hr
  simp only at hr
  rw [if_pos hc] at hr
  have := (List.perm_insertionSort rowLe _).mem_iff.1 hr
  simpa using (List.of_mem_filter this)

theorem query_table_new_last (table : List DBRow) (catalog : List Column) (c : Int) :
    ((query_table false table catalog c).data = [] →
      (query_table false table catalog c).new_last_sent_id = c) ∧
    (∀ hne : (query_table false table catalog c).data ≠ [],
      (query_table false table catalog c).new_last_sent_id
        = ((query_table false table catalog c).data.getLast hne).id) := by
  have hmatch : (query_table false table catalog c).new_last_sent_id
      = match (query_table false table catalog c).data.getLast? with
        | some r => r.id
        | none => c := rfl
  constructor
  · intro hnil
    rw [hmatch, hnil]
    rfl
  · intro hne
    rw [hmatch, List.getLast?_eq_getLast _ hne]

theorem cycle_step_cursor (table : List DBRow) (catalog : List Column) (c : Int)
    (hc : 0 ≤ c) (hids : ∀ r ∈ table, 0 ≤ r.id) :
    0 ≤ (sync_cycle false true true table catalog c).cursor ∧
    c ≤ (sync_cycle false true true table catalog c).cursor ∧
    (∀ r ∈ deliveredRows true true (sync_cycle false true true table catalog c),
      r.id ≤ (sync_cycle false true true table catalog c).cursor) ∧
    (deliveredRows true true (sync_cycle false true true table catalog c) ≠ [] →
      ∃ r ∈ deliveredRows true true (sync_cycle false true true table catalog c),
        r.id = (sync_cycle false true true table catalog c).cursor) ∧
    (deliveredRows true true (sync_cycle false true true table catalog c) = [] →
      (sync_cycle false true true table catalog c).cursor = c) := by
  by_cases hd : (query_table false table catalog c).data = []
  · have hcur : (sync_cycle false true true table catalog c).cursor = c := by
      simp only [sync_cycle]
      split
      · simp [hd]
      · simp
    have hdel : deliveredRows true true (sync_cycle false true true table catalog c)
        = [] := by
      simp only [sync_cycle]
      split
      · simp [deliveredRows, hd]
      · simp [deliveredRows]
    refine ⟨by rw [hcur]; exact hc, by rw [hcur], ?_, ?_, fun _ => hcur⟩
    · rw [hdel]
      intro r hr
      simp at hr
    · rw [hdel]
      intro hne
      exact absurd rfl hne
  · have hA : sync_cycle false true true table catalog c
        = ⟨(query_table false table catalog c).new_last_sent_id, true,
           some ((query_table false table catalog c).schema,
             (query_table false table catalog c).data), true,
           !false && decide (c = 0)⟩ := by
      simp only [sync_cycle]
      rw [if_pos (Or.inl hd)]
      simp [hd]
    have hdel : deliveredRows true true (sync_cycle false true true table catalog c)
        = (query_table false table catalog c).data := by
      rw [hA]
      simp [deliveredRows]
    have hcur : (sync_cycle false true true table catalog c).cursor
        = ((query_table false table catalog c).data.getLast hd).id := by
      rw [hA]
      exact (query_table_new_last table catalog c).2 hd
    have hlast_mem : (query_table false table catalog c).data.getLast hd
        ∈ (query_table false table catalog c).data := List.getLast_mem hd
    have h0 : 0 ≤ ((query_table false table catalog c).data.getLast hd).id :=
      hids _ (query_table_mem hlast_mem)
    have hcle : c ≤ ((query_table false table catalog c).data.getLast hd).id := by
      rcases lt_or_eq_of_le hc with hpos | hzero
      · exact le_of_lt (query_table_gt hpos hlast_mem)
      · omega
    refine ⟨by rw [hcur]; exact h0, by rw [hcur]; exact hcle, ?_, ?_, ?_⟩
    · intro r hr
      rw [hdel] at hr
      rw [hcur]
      exact sorted_le_getLast (query_table_sorted table catalog c) hd r hr
    · intro _
      rw [hdel, hcur]
      exact ⟨_, hlast_mem, rfl⟩
    · rw [hdel]
      intro hcontr
      exact absurd hcontr hd

theorem runCycles_cons (catalog : List Column) (c : Int) (e : CycleEnv)
    (es : List CycleEnv) :
    runCycles catalog c (e :: es)
      = ((runCycles catalog
            (sync_cycle e.qfail e.connectOk e.sendOk e.table catalog c).cursor es).1,
         deliveredRows e.connectOk e.sendOk
            (sync_cycle e.qfail e.connectOk e.sendOk e.table catalog c)
           ++ (runCycles catalog
            (sync_cycle e.qfail e.connectOk e.sendOk e.table catalog c).cursor es).2) := by
  rfl

/-- Claim C3 (amended): over any sequence of successful sync cycles whose
source keys are non-negative and whose starting persisted cursor is
non-negative (0 is the beginning sentinel), the persisted cursor stays
non-negative and non-decreasing, bounds every transmitted key, equals
the key of some transmitted row whenever any row has been transmitted
(i.e. it is the maximum primary key among all rows transmitted so far),
and is unchanged when nothing was transmitted. -/
theorem c3_cursor_monotone (catalog : List Column) (c0 : Int) (envs : List CycleEnv)
    (hc0 : 0 ≤ c0)
    (hok : ∀ e ∈ envs, e.qfail = false ∧ e.connectOk = true ∧ e.sendOk = true ∧
      ∀ r ∈ e.table, 0 ≤ r.id) :
    0 ≤ (runCycles catalog c0 envs).1 ∧
    c0 ≤ (runCycles catalog c0 envs).1 ∧
    (∀ r ∈ (runCycles catalog c0 envs).2, r.id ≤ (runCycles catalog c0 envs).1) ∧
    ((runCycles catalog c0 envs).2 ≠ [] →
      ∃ r ∈ (runCycles catalog c0 envs).2, r.id = (runCycles catalog c0 envs).1) ∧
    ((runCycles catalog c0 envs).2 = [] → (runCycles catalog c0 envs).1 = c0) := by
  induction envs generalizing c0 with
  | nil =>
    refine ⟨hc0, le_rfl, ?_, ?_, fun _ => rfl⟩
    · intro r hr
      simp [runCycles] at hr
    · intro hne
      exact absurd (by simp [runCycles]) hne
  | cons e es ih =>
    obtain ⟨hq, hcon, hsend, hid⟩ := hok e (by simp)
    rw [runCycles_cons, hq, hcon, hsend]
    obtain ⟨h0, hle, hall, hex, hemp⟩ := cycle_step_cursor e.table catalog c0 hc0 hid
    obtain ⟨i0, ile, iall, iex, iemp⟩ :=
      ih (sync_cycle false true true e.table catalog c0).cursor h0
        (fun x hx => hok x (by simp [hx]))
    refine ⟨i0, le_trans hle ile, ?_, ?_, ?_⟩
    · intro r hr
      rcases List.mem_append.1 hr with h | h
      · exact le_trans (hall r h) ile
      · exact iall r h
    · intro hne
      by_cases hT : (runCycles catalog
          (sync_cycle false true true e.table catalog c0).cursor es).2 = []
      · rw [hT] at hne ⊢
        simp only [List.append_nil] at hne ⊢
        obtain ⟨r, hrm, hre⟩ := hex hne
        exact ⟨r, hrm, by rw [hre, iemp hT]⟩
      · obtain ⟨r, hrm, hre⟩ := iex hT
        exact ⟨r, List.mem_append_right _ hrm, hre⟩
    · intro hnil
      rw [List.append_eq_nil] at hnil
      rw [iemp hnil.2, hemp hnil.1]

/-- Claim C3, counterexample: with the beginning-sentinel cursor 0 and a
source row with negative primary key -1, one fully successful cycle
transmits that row and persists cursor -1: the persisted cursor
decreases across a successful cycle, refuting unconditional
non-decrease. -/
theorem c3_counterexample :
    (runCycles [] 0 [⟨false, true, true, [⟨-1, []⟩]⟩]).1 = -1 ∧
    (runCycles [] 0 [⟨false, true, true, [⟨-1, []⟩]⟩]).2 = [⟨-1, []⟩] ∧
    (runCycles [] 0 [⟨false, true, true, [⟨-1, []⟩]⟩]).1 < 0 := by
  decide

/-- Claim C3, witness: two successful cycles (keys 1..2 then 3) advance
the persisted cursor 0 → 3, the maximum transmitted key. -/
theorem c3_cursor_monotone_witness :
    (0 : Int) ≤ 0 ∧
    (∀ e ∈ [CycleEnv.mk false true true [⟨1, []⟩, ⟨2, []⟩],
            CycleEnv.mk false true true [⟨1, []⟩, ⟨2, []⟩, ⟨3, []⟩]],
      e.qfail = false ∧ e.connectOk = true ∧ e.sendOk = true ∧
      ∀ r ∈ e.table, 0 ≤ r.id) ∧
    0 ≤ (runCycles [] 0 [CycleEnv.mk false true true [⟨1, []⟩, ⟨2, []⟩],
            CycleEnv.mk false true true [⟨1, []⟩, ⟨2, []⟩, ⟨3, []⟩]]).1 ∧
    (runCycles [] 0 [CycleEnv.mk false true true [⟨1, []⟩, ⟨2, []⟩],
            CycleEnv.mk false true true [⟨1, []⟩, ⟨2, []⟩, ⟨3, []⟩]]).1 = 3 ∧
    (∀ r ∈ (runCycles [] 0 [CycleEnv.mk false true true [⟨1, []⟩, ⟨2, []⟩],
            CycleEnv.mk false true true [⟨1, []⟩, ⟨2, []⟩, ⟨3, []⟩]]).2,
      r.id ≤ (runCycles [] 0 [CycleEnv.mk false true true [⟨1, []⟩, ⟨2, []⟩],
            CycleEnv.mk false true true [⟨1, []⟩, ⟨2, []⟩, ⟨3, []⟩]]).1) := by
  refine ⟨by decide, by decide, ?_, by decide, ?_⟩
  · exact (c3_cursor_monotone [] 0 _ (by decide) (by decide)).1
  · exact (c3_cursor_monotone [] 0 _ (by decide) (by decide)).2.2.1

theorem foldl_max_spec : ∀ (rs : List DBRow) (a : Int),
    a ≤ rs.foldl (fun b x => max b x.id) a ∧
    (∀ x ∈ rs, x.id ≤ rs.foldl (fun b x => max b x.id) a) ∧
    (rs.foldl (fun b x => max b x.id) a = a ∨
      ∃ x ∈ rs, rs.foldl (fun b x => max b x.id) a = x.id) := by
  intro rs
  induction rs with
  | nil => intro a; exact ⟨le_rfl, by simp, Or.inl rfl⟩
  | cons y ys ih =>
    intro a
    obtain ⟨h1, h2, h3⟩ := ih (max a y.id)
    rw [List.foldl_cons]
    refine ⟨le_trans (le_max_left _ _) h1, ?_, ?_⟩
    · intro x hx
      rcases List.mem_cons.1 hx with rfl | hx2
      · exact le_trans (le_max_right _ _) h1
      · exact h2 x hx2
    · rcases h3 with he | ⟨x, hx, he⟩
      · rcases max_choice a y.id with hm | hm
        · exact Or.inl (he.trans hm)
        · exact Or.inr ⟨y, by simp, he.trans hm⟩
      · exact Or.inr ⟨x, by simp [hx], he⟩

theorem maxId_spec {l : List DBRow} (hne : l ≠ []) :
    ∃ r ∈ l, maxId l = some r.id ∧ ∀ x ∈ l, x.id ≤ r.id := by
  cases l with
  | nil => exact absurd rfl hne
  | cons y ys =>
    obtain ⟨h1, h2, h3⟩ := foldl_max_spec ys y.id
    rcases h3 with he | ⟨x, hx, he⟩
    · refine ⟨y, by simp, ?_, ?_⟩
      · rw [maxId, he]
      · intro x hx
        rcases List.mem_cons.1 hx with rfl | hx2
        · exact le_rfl
        · rw [← he]
          exact h2 x hx2
    · refine ⟨x, by simp [hx], ?_, ?_⟩
      · rw [maxId, he]
      · intro z hz
        rw [← he]
        rcases List.mem_cons.1 hz with rfl | hz2
        · exact h1
        · exact h2 z hz2

theorem query_new_rows_eq (table : List DBRow) (lv : Int) :
    query_new_rows false table (some lv) none
      = ((table.filter (fun r => lv < r.id)).insertionSort rowLe,
         if ((table.filter (fun r => lv < r.id)).insertionSort rowLe).isEmpty then none
         else maxId ((table.filter (fun r => lv < r.id)).insertionSort rowLe)) := rfl

/-- Claim C4 (amended): with the key filter active (a cursor above the
sentinel for `query_table`, a non-None `last_value` and no timestamp
condition for `query_new_rows`), extraction returns exactly rows with
key strictly beyond the cursor, in ascending key order; `query_table`
returns as new cursor the last (maximal) returned key, or the old cursor
unchanged when no rows; `query_new_rows` returns the maximum returned
key, but `None` — not `last_value` — when no rows. -/
theorem c4_extraction_contract (table : List DBRow) (catalog : List Column)
    (lv : Int) (c : Int) (hc : 0 < c) :
    (∀ r ∈ (query_new_rows false table (some lv) none).1, lv < r.id) ∧
    List.Sorted rowLe (query_new_rows false table (some lv) none).1 ∧
    ((query_new_rows false table (some lv) none).1 = [] →
      (query_new_rows false table (some lv) none).2 = none) ∧
    ((query_new_rows false table (some lv) none).1 ≠ [] →
      ∃ r ∈ (query_new_rows false table (some lv) none).1,
        (query_new_rows false table (some lv) none).2 = some r.id ∧
        ∀ x ∈ (query_new_rows false table (some lv) none).1, x.id ≤ r.id) ∧
    (∀ r ∈ (query_table false table catalog c).data, c < r.id) ∧
    List.Sorted rowLe (query_table false table catalog c).data ∧
    ((query_table false table catalog c).data = [] →
      (query_table false table catalog c).new_last_sent_id = c) ∧
    (∀ hne : (query_table false table catalog c).data ≠ [],
      (query_table false table catalog c).new_last_sent_id
        = ((query_table false table catalog c).data.getLast hne).id ∧
      ∀ x ∈ (query_table false table catalog c).data,
        x.id ≤ ((query_table false table catalog c).data.getLast hne).id) := by
  refine ⟨?_, ?_, ?_, ?_, fun r hr => query_table_gt hc hr,
    query_table_sorted table catalog c, (query_table_new_last table catalog c).1,
    fun hne => ⟨(query_table_new_last table catalog c).2 hne,
      sorted_le_getLast (query_table_sorted table catalog c) hne⟩⟩
  · intro r hr
    rw [query_new_rows_eq] at hr
    have := (List.perm_insertionSort rowLe _).mem_iff.1 hr
    simpa using List.of_mem_filter this
  · rw [query_new_rows_eq]
    exact List.sorted_insertionSort rowLe _
  · intro hnil
    rw [query_new_rows_eq] at hnil ⊢
    simp only at hnil ⊢
    rw [hnil]
    rfl
  · intro hne
    rw [query_new_rows_eq] at hne ⊢
    simp only at hne ⊢
    obtain ⟨r, hrm, hmax, hub⟩ := maxId_spec hne
    refine ⟨r, hrm, ?_, hub⟩
    rw [if_neg (by simpa using hne), hmax]

/-- Claim C4, counterexample: `query_new_rows` on an empty result set
returns `None` as the new cursor, not `lastCursor` unchanged — calling
it with cursor 5 on an empty table yields `([], None)`, and `None ≠
some 5` resets the caller to the beginning sentinel. -/
theorem c4_counterexample :
    query_new_rows false [] (some 5) none = ([], none) ∧
    (query_new_rows false [] (some 5) none).2 ≠ some 5 := by
  constructor
  · rfl
  · intro h
    rw [show (query_new_rows false [] (some 5) none).2 = none from rfl] at h
    exact absurd h (by simp)

/-- Claim C4, witness: cursor 1 over keys {1, 3, 2}: both extraction
operations return rows 2, 3 in order with new cursor 3. -/
theorem c4_extraction_contract_witness :
    (0 : Int) < 1 ∧
    (query_new_rows false [⟨1, []⟩, ⟨3, []⟩, ⟨2, []⟩] (some 1) none).1
      = [⟨2, []⟩, ⟨3, []⟩] ∧
    (query_new_rows false [⟨1, []⟩, ⟨3, []⟩, ⟨2, []⟩] (some 1) none).2 = some 3 ∧
    (query_table false [⟨1, []⟩, ⟨3, []⟩, ⟨2, []⟩] [] 1).data = [⟨2, []⟩, ⟨3, []⟩] ∧
    (query_table false [⟨1, []⟩, ⟨3, []⟩, ⟨2, []⟩] [] 1).new_last_sent_id = 3 ∧
    (∀ r ∈ (query_new_rows false [⟨1, []⟩, ⟨3, []⟩, ⟨2, []⟩] (some 1) none).1,
      (1 : Int) < r.id) ∧
    List.Sorted rowLe (query_table false [⟨1, []⟩, ⟨3, []⟩, ⟨2, []⟩] [] 1).data := by
  refine ⟨by decide, by decide, by decide, by decide, by decide, ?_, ?_⟩
  · exact (c4_extraction_contract [⟨1, []⟩, ⟨3, []⟩, ⟨2, []⟩] [] 1 1 (by decide)).1
  · exact (c4_extraction_contract [⟨1, []⟩, ⟨3, []⟩, ⟨2, []⟩] [] 1 1
      (by decide)).2.2.2.2.2.1

/-! ## Receiver-side claims -/

/-- Claim C5: applying the same schema twice to a target where the table
does not exist returns True both times, leaves exactly one table with
exactly that schema, the second call changes nothing, and on any target
where the table already exists `apply_schema` never drops or alters it
(it is the identity on the catalog). -/
theorem c5_apply_schema_idempotent (db : TargetDB) (tname : List Char)
    (schema : List Column) (habs : tableExists db tname = false) :
    (apply_schema false db tname schema).1 = true ∧
    (apply_schema false (apply_schema false db tname schema).2 tname schema).1
      = true ∧
    (apply_schema false (apply_schema false db tname schema).2 tname schema).2
      = (apply_schema false db tname schema).2 ∧
    (apply_schema false db tname schema).2.filter (fun t => t.1 = tname)
      = [(tname, schema)] ∧
    (∀ db2 : TargetDB, tableExists db2 tname = true →
      apply_schema false db2 tname schema = (true, db2)) := by
  have hnever : ∀ db2 : TargetDB, tableExists db2 tname = true →
      apply_schema false db2 tname schema = (true, db2) := by
    intro db2 h2
    simp [apply_schema, h2]
  have h1 : apply_schema false db tname schema = (true, db ++ [(tname, schema)]) := by
    simp [apply_schema, habs]
  have hex : tableExists (db ++ [(tname, schema)]) tname = true := by
    simp [tableExists]
  have hfilter : db.filter (fun t => t.1 = tname) = [] := by
    rw [List.filter_eq_nil_iff]
    intro t ht
    simp only [tableExists, List.any_eq_false] at habs
    simpa using habs t ht
  refine ⟨by rw [h1], ?_, ?_, ?_, hnever⟩
  · rw [h1, show ((true : Bool), db ++ [(tname, schema)]).2 = db ++ [(tname, schema)]
      from rfl, hnever _ hex]
  · rw [h1, show ((true : Bool), db ++ [(tname, schema)]).2 = db ++ [(tname, schema)]
      from rfl, hnever _ hex]
  · rw [h1, show ((true : Bool), db ++ [(tname, schema)]).2 = db ++ [(tname, schema)]
      from rfl, List.filter_append, hfilter]
    simp

/-- Claim C5, witness: two applications of a one-column schema on an
empty catalog. -/
theorem c5_apply_schema_idempotent_witness :
    tableExists [] ['t'] = false ∧
    (apply_schema false [] ['t'] [⟨['i', 'd'], ['I', 'N', 'T']⟩]).1 = true ∧
    (apply_schema false
      (apply_schema false [] ['t'] [⟨['i', 'd'], ['I', 'N', 'T']⟩]).2
      ['t'] [⟨['i', 'd'], ['I', 'N', 'T']⟩]).1 = true ∧
    (apply_schema false
      (apply_schema false [] ['t'] [⟨['i', 'd'], ['I', 'N', 'T']⟩]).2
      ['t'] [⟨['i', 'd'], ['I', 'N', 'T']⟩]).2
      = (apply_schema false [] ['t'] [⟨['i', 'd'], ['I', 'N', 'T']⟩]).2 ∧
    (apply_schema false [] ['t'] [⟨['i', 'd'], ['I', 'N', 'T']⟩]).2.filter
      (fun t => t.1 = ['t']) = [(['t'], [⟨['i', 'd'], ['I', 'N', 'T']⟩])] := by
  have h := c5_apply_schema_idempotent [] ['t'] [⟨['i', 'd'], ['I', 'N', 'T']⟩]
    (by decide)
  exact ⟨by decide, h.1, h.2.1, h.2.2.1, h.2.2.2.1⟩

theorem runInserts_spec (insOk : Nat → Bool) (scope : Bool) (sch : List JValue) :
    ∀ (rows : List JValue) (i : Nat) (acc : List (RowDict × Bool)),
      (∀ row ∈ rows, (row_to_dict scope sch row).isSome) →
      ∃ att, runInserts insOk scope sch rows i acc = .done (acc.reverse ++ att) ∧
        att.map Prod.fst
          = rows.map (fun row => (row_to_dict scope sch row).getD []) := by
  intro rows
  induction rows with
  | nil =>
    intro i acc _
    exact ⟨[], by simp [runInserts], by simp⟩
  | cons row rest ih =>
    intro i acc hconv
    obtain ⟨d, hd⟩ := Option.isSome_iff_exists.1 (hconv row (by simp))
    have hstep : runInserts insOk scope sch (row :: rest) i acc
        = runInserts insOk scope sch rest (i + 1) ((d, insOk i) :: acc) := by
      rw [runInserts, hd]
    obtain ⟨att, hrun, hmap⟩ := ih (i + 1) ((d, insOk i) :: acc)
      (fun x hx => hconv x (by simp [hx]))
    refine ⟨(d, insOk i) :: att, ?_, ?_⟩
    · rw [hstep, hrun]
      simp
    · simp [hmap, hd]

/-- Claim C6: for a frame whose payload carries both `schema` and `data`
keys, a failing `apply_schema` aborts the whole frame before any insert
is attempted, while after a successful `apply_schema` every row of the
frame is passed to `insert_row` regardless of individual insert
outcomes (the attempted row dicts are the same under an all-failing
insert oracle). -/
theorem c6_frame_isolation (m : JMembers) (schemaV : JValue) (dl : JList)
    (insOk : Nat → Bool)
    (hs : getMember m schemaKey = some schemaV)
    (hd : getMember m dataKey = some (.jarr dl))
    (hconv : ∀ row ∈ dl.toList,
      (row_to_dict true (schemaListOf schemaV) row).isSome) :
    apply_phase false insOk (.jobj m) = .schemaFailed ∧
    (apply_phase false insOk (.jobj m)).attempts = [] ∧
    ((apply_phase true insOk (.jobj m)).attempts).length = dl.toList.length ∧
    ((apply_phase true insOk (.jobj m)).attempts).map Prod.fst
      = ((apply_phase true (fun _ => false) (.jobj m)).attempts).map Prod.fst := by
  have hfail : apply_phase false insOk (.jobj m) = .schemaFailed := by
    simp [apply_phase, hs, hd]
  have hok : ∀ oracle : Nat → Bool, apply_phase true oracle (.jobj m)
      = runInserts oracle true (schemaListOf schemaV) dl.toList 0 [] := by
    intro oracle
    simp [apply_phase, hs, hd]
  obtain ⟨att1, hrun1, hmap1⟩ := runInserts_spec insOk true
    (schemaListOf schemaV) dl.toList 0 [] hconv
  obtain ⟨att2, hrun2, hmap2⟩ := runInserts_spec (fun _ => false) true
    (schemaListOf schemaV) dl.toList 0 [] hconv
  refine ⟨hfail, by rw [hfail]; rfl, ?_, ?_⟩
  · rw [hok insOk, hrun1]
    have := congrArg List.length hmap1
    simpa [ApplyResult.attempts] using this
  · rw [hok insOk, hok (fun _ => false), hrun1, hrun2]
    simp only [ApplyResult.attempts, List.reverse_nil, List.nil_append]
    rw [hmap1, hmap2]

/-- Claim C6, witness: a two-row frame where the insert of the first row
fails: schema failure aborts with no attempts; schema success attempts
both rows. -/
theorem c6_frame_isolation_witness :
    getMember (.cons schemaKey (schemaJ [⟨['i', 'd'], ['I', 'N', 'T']⟩])
        (.cons dataKey (rowsJ [[Scalar.i 1], [Scalar.i 2]]) .nil)) schemaKey
      = some (schemaJ [⟨['i', 'd'], ['I', 'N', 'T']⟩]) ∧
    apply_phase false (fun i => decide (i = 1))
        (.jobj (.cons schemaKey (schemaJ [⟨['i', 'd'], ['I', 'N', 'T']⟩])
          (.cons dataKey (rowsJ [[Scalar.i 1], [Scalar.i 2]]) .nil)))
      = .schemaFailed ∧
    ((apply_phase true (fun i => decide (i = 1))
        (.jobj (.cons schemaKey (schemaJ [⟨['i', 'd'], ['I', 'N', 'T']⟩])
          (.cons dataKey (rowsJ [[Scalar.i 1], [Scalar.i 2]]) .nil)))).attempts).length
      = 2 := by
  refine ⟨by decide, ?_, ?_⟩
  · exact (c6_frame_isolation
      (.cons schemaKey (schemaJ [⟨['i', 'd'], ['I', 'N', 'T']⟩])
        (.cons dataKey (rowsJ [[Scalar.i 1], [Scalar.i 2]]) .nil))
      (schemaJ [⟨['i', 'd'], ['I', 'N', 'T']⟩])
      (JList.ofList (([[Scalar.i 1], [Scalar.i 2]]).map rowJ))
      (fun i => decide (i = 1)) (by decide) (by decide) (by decide)).1
  · have h := (c6_frame_isolation
      (.cons schemaKey (schemaJ [⟨['i', 'd'], ['I', 'N', 'T']⟩])
        (.cons dataKey (rowsJ [[Scalar.i 1], [Scalar.i 2]]) .nil))
      (schemaJ [⟨['i', 'd'], ['I', 'N', 'T']⟩])
      (JList.ofList (([[Scalar.i 1], [Scalar.i 2]]).map rowJ))
      (fun i => decide (i = 1)) (by decide) (by decide) (by decide)).2.2.1
    rw [h]
    decide

/-! ## Positional-row conversion facts -/

theorem dictSet_not_mem {d : RowDict} {k : List Char}
    (hk : ∀ p ∈ d, p.1 ≠ k) (v : JValue) :
    dictSet d k v = d ++ [(k, v)] := by
  induction d with
  | nil => rfl
  | cons p tl ih =>
    obtain ⟨k2, v2⟩ := p
    rw [dictSet, if_neg (hk (k2, v2) (by simp))]
    rw [ih (fun q hq => hk q (by simp [hq]))]
    rfl

theorem buildFromSchema_zip (vals : List JValue) :
    ∀ (cols : List JValue) (names : List (List Char)) (i : Nat) (d : RowDict),
      cols.map colName = names.map some →
      (names ++ d.map Prod.fst).Nodup →
      buildFromSchema vals cols i d = some (d ++ names.zip (vals.drop i)) := by
  intro cols
  induction cols with
  | nil =>
    intro names i d hmap _
    have hnames : names = [] := by
      cases names with
      | nil => rfl
      | cons a b => simp at hmap
    subst hnames
    simp [buildFromSchema]
  | cons col cols2 ih =>
    intro names i d hmap hnodup
    obtain ⟨nm, names2, rfl⟩ : ∃ nm names2, names = nm :: names2 := by
      cases names with
      | nil => simp at hmap
      | cons a b => exact ⟨a, b, rfl⟩
    rw [List.map_cons, List.map_cons, List.cons.injEq] at hmap
    obtain ⟨hcol, hmap2⟩ := hmap
    have hstep : buildFromSchema vals (col :: cols2) i d
        = if h : i < vals.length then
            buildFromSchema vals cols2 (i + 1) (dictSet d nm (vals.get ⟨i, h⟩))
          else buildFromSchema vals cols2 (i + 1) d := by
      rw [buildFromSchema, hcol]
    rw [hstep]
    by_cases hlt : i < vals.length
    · rw [dif_pos hlt]
      have hnm_not_d : ∀ p ∈ d, p.1 ≠ nm := by
        intro p hp heq
        have : nm ∈ d.map Prod.fst := by
          rw [← heq]
          exact List.mem_map_of_mem _ hp
        rw [List.cons_append, List.nodup_cons] at hnodup
        exact hnodup.1 (by simp [this])
      rw [dictSet_not_mem hnm_not_d]
      have hnodup2 : (names2 ++ (d ++ [(nm, vals.get ⟨i, hlt⟩)]).map Prod.fst).Nodup := by
        have hperm : List.Perm
            (names2 ++ (d ++ [(nm, vals.get ⟨i, hlt⟩)]).map Prod.fst)
            (nm :: names2 ++ d.map Prod.fst) := by
          simp only [List.map_append, List.map_cons, List.map_nil]
          have h2 := List.Perm.append_left names2
            (List.perm_append_singleton nm (d.map Prod.fst))
          exact h2.trans List.perm_middle
        exact hperm.symm.nodup hnodup
      have hdrop : vals.drop i = vals.get ⟨i, hlt⟩ :: vals.drop (i + 1) := by
        rw [List.drop_eq_getElem_cons hlt]
        simp
      rw [ih names2 (i + 1) (d ++ [(nm, vals.get ⟨i, hlt⟩)]) hmap2 hnodup2, hdrop,
        List.zip_cons_cons]
      simp
    · rw [dif_neg hlt]
      have hnodup2 : (names2 ++ d.map Prod.fst).Nodup := by
        rw [List.cons_append, List.nodup_cons] at hnodup
        exact hnodup.2
      rw [ih names2 (i + 1) d hmap2 hnodup2]
      have hd1 : vals.drop i = [] := List.drop_eq_nil_of_le (by omega)
      have hd2 : vals.drop (i + 1) = [] := List.drop_eq_nil_of_le (by omega)
      rw [hd1, hd2]
      simp

/-- Claim C10: on a bare-list payload the receiver builds each positional
row's dict under the placeholder names `column1`/`column2` (dropping every
value past the second and padding a short row with null), and on a
`{schema, data}` payload a positional row is zipped against the schema's
column names — a row longer than the schema loses its extra values and a
shorter row fills only its first `len(row)` columns — with no error raised
in either case. -/
theorem c10_positional_row_conversion (aok : Bool) (insOk : Nat → Bool)
    (sch cols : List JValue) (names : List (List Char))
    (pl l vals : JList)
    (hpl : ∀ row ∈ pl.toList, ∃ rl, row = JValue.jarr rl)
    (hnames : cols.map colName = names.map some)
    (hnodup : names.Nodup) :
    ((apply_phase aok insOk (.jarr pl)).attempts).map Prod.fst
      = pl.toList.map (fun row => (row_to_dict false [] row).getD []) ∧
    row_to_dict false sch (.jarr l)
      = some [(column1Key, ((JList.toList l).get? 0).getD .jnull),
              (column2Key, ((JList.toList l).get? 1).getD .jnull)] ∧
    row_to_dict true cols (.jarr vals) = some (names.zip vals.toList) := by
  refine ⟨?_, rfl, ?_⟩
  · have hconv : ∀ row ∈ pl.toList, (row_to_dict false [] row).isSome := by
      intro row hrow
      obtain ⟨rl, rfl⟩ := hpl row hrow
      simp [row_to_dict]
    obtain ⟨att, hrun, hmap⟩ := runInserts_spec insOk false [] pl.toList 0 [] hconv
    have hdisp : apply_phase aok insOk (.jarr pl)
        = runInserts insOk false [] pl.toList 0 [] := rfl
    rw [hdisp, hrun]
    simpa [ApplyResult.attempts] using hmap
  · have h := buildFromSchema_zip vals.toList cols names 0 []
      hnames (by simpa using hnodup)
    simp [row_to_dict, h]

/-- Claim C10, witness: a three-value row under a bare-list payload keeps
only `column1`/`column2`; a three-value row under a two-column schema
keeps only the first two values; the bare-list dispatch attempts the
placeholder dict. -/
theorem c10_positional_row_conversion_witness :
    row_to_dict false [] (.jarr (JList.ofList
        [scalarJ (.i 1), scalarJ (.i 2), scalarJ (.i 3)]))
      = some [(column1Key, .jint 1), (column2Key, .jint 2)] ∧
    row_to_dict true [columnJ ⟨['i', 'd'], ['I', 'N', 'T']⟩,
        columnJ ⟨['v'], ['I', 'N', 'T']⟩]
        (.jarr (JList.ofList [scalarJ (.i 7), scalarJ (.i 8), scalarJ (.i 9)]))
      = some [(['i', 'd'], .jint 7), (['v'], .jint 8)] ∧
    ((apply_phase true (fun _ => true)
        (.jarr (JList.ofList [rowJ [.i 1, .i 2, .i 3]]))).attempts).map Prod.fst
      = [[(column1Key, .jint 1), (column2Key, .jint 2)]] := by
  have h := c10_positional_row_conversion true (fun _ => true) []
    [columnJ ⟨['i', 'd'], ['I', 'N', 'T']⟩, columnJ ⟨['v'], ['I', 'N', 'T']⟩]
    [['i', 'd'], ['v']]
    (JList.ofList [rowJ [.i 1, .i 2, .i 3]])
    (JList.ofList [scalarJ (.i 1), scalarJ (.i 2), scalarJ (.i 3)])
    (JList.ofList [scalarJ (.i 7), scalarJ (.i 8), scalarJ (.i 9)])
    (by intro row hrow
        rw [List.mem_singleton.mp hrow]
        exact ⟨_, rfl⟩)
    (by decide) (by decide)
  refine ⟨?_, ?_, ?_⟩
  · rw [h.2.1]
    decide
  · rw [h.2.2]
    decide
  · rw [h.1]
    decide
